import Mathlib

/-!
Verification development for the histogrammar core primitives
(Bag, Deviate, Fraction, Select) of histogrammar-python.

The Python floats are embedded as `EVal`: a finite rational, +inf, -inf,
or NaN, with exact rational arithmetic on the finite part and IEEE-754
propagation rules for the non-finite constructors.  The four primitives
become one inductive tree `Prim`, and `fill`, `__add__`, `zero`, `__eq__`,
`toJsonFragment` and `fromJsonFragment` are translated statement by
statement from src/histogrammar/primitives/{bag,deviate,fraction,select}.py.
Helpers that live in util.py / defs.py (not part of the sources) —
`floatOrNan`, `floatToJson`, `numeq`, quantity equality, the top-level
`Factory.toJson` / `Factory.fromJson` wrappers — are modelled from the
specification and are marked as such in their doc comments.
-/

/-- An IEEE-754-style double: a finite rational, +infinity, -infinity, or NaN.
Finite arithmetic is exact (no rounding/overflow is modelled). -/
inductive EVal where
  | fin (q : ℚ)
  | pinf
  | ninf
  | nan
deriving DecidableEq

/-- math.isnan -/
def EVal.isNan : EVal → Bool
  | .nan => true
  | _ => false

/-- math.isinf -/
def EVal.isInf : EVal → Bool
  | .pinf => true
  | .ninf => true
  | _ => false

/-- Python `x > 0.0` (false for NaN). -/
def EVal.gtZero : EVal → Bool
  | .fin q => decide (0 < q)
  | .pinf => true
  | _ => false

/-- Python `x < 0.0` (false for NaN). -/
def EVal.ltZero : EVal → Bool
  | .fin q => decide (q < 0)
  | .ninf => true
  | _ => false

/-- IEEE addition. -/
def EVal.add : EVal → EVal → EVal
  | .nan, _ => .nan
  | _, .nan => .nan
  | .pinf, .ninf => .nan
  | .ninf, .pinf => .nan
  | .pinf, _ => .pinf
  | _, .pinf => .pinf
  | .ninf, _ => .ninf
  | _, .ninf => .ninf
  | .fin a, .fin b => .fin (a + b)

/-- IEEE negation. -/
def EVal.neg : EVal → EVal
  | .fin q => .fin (-q)
  | .pinf => .ninf
  | .ninf => .pinf
  | .nan => .nan

/-- IEEE subtraction. -/
def EVal.sub (x y : EVal) : EVal := x.add y.neg

/-- IEEE multiplication (inf * 0 = NaN). -/
def EVal.mul : EVal → EVal → EVal
  | .nan, _ => .nan
  | _, .nan => .nan
  | .fin a, .fin b => .fin (a * b)
  | .pinf, .pinf => .pinf
  | .pinf, .ninf => .ninf
  | .ninf, .pinf => .ninf
  | .ninf, .ninf => .pinf
  | .pinf, .fin b => if 0 < b then .pinf else if b < 0 then .ninf else .nan
  | .fin a, .pinf => if 0 < a then .pinf else if a < 0 then .ninf else .nan
  | .ninf, .fin b => if 0 < b then .ninf else if b < 0 then .pinf else .nan
  | .fin a, .ninf => if 0 < a then .ninf else if a < 0 then .pinf else .nan

/-- IEEE division (inf/inf = NaN, finite/inf = 0; division by the finite
zero, which raises ZeroDivisionError in Python and is never reached under
the guards of the translated code, is mapped to NaN). -/
def EVal.div : EVal → EVal → EVal
  | .nan, _ => .nan
  | _, .nan => .nan
  | .pinf, .pinf => .nan
  | .pinf, .ninf => .nan
  | .ninf, .pinf => .nan
  | .ninf, .ninf => .nan
  | .fin _, .pinf => .fin 0
  | .fin _, .ninf => .fin 0
  | .fin a, .fin b => if b = 0 then .nan else .fin (a / b)
  | .pinf, .fin b => if b = 0 then .nan else if 0 < b then .pinf else .ninf
  | .ninf, .fin b => if b = 0 then .nan else if 0 < b then .ninf else .pinf

/-- Modelled from the spec: `util.numeq` (util.py is not among the sources).
Floating-point comparisons use a single library-wide
(relativeTolerance, absoluteTolerance) pair and treat NaN as equal to NaN;
exactly equal values always compare equal. -/
def numeq (rtol atol : ℚ) : EVal → EVal → Bool
  | .nan, .nan => true
  | .fin a, .fin b => decide (a = b) || decide (|a - b| ≤ atol + rtol * max |a| |b|)
  | x, y => decide (x = y)

/-- The value returned by a user-supplied quantity function: a number
(Python bool coerces to 0/1 on every path the primitives take, so it is
folded into `num`), a string, a sequence of values, or an ill-typed
object of any other Python type (`bad`). -/
inductive QVal where
  | num (x : EVal)
  | str (s : String)
  | vec (xs : List QVal)
  | bad

/-- An element of a Bag tuple key after coercion by `floatOrNan`:
a finite float, +-inf, or the string "nan" (Python stores NaN as the
string "nan" so that dictionary lookup works). -/
inductive TElem where
  | tnum (q : ℚ)
  | tpinf
  | tninf
  | tnan
deriving DecidableEq

/-- A Bag dictionary key: a float (NaN is stored as the string "nan",
so it appears here as `kstr "nan"`), a string, or a tuple of coerced
floats. -/
inductive BKey where
  | knum (q : ℚ)
  | kpinf
  | kninf
  | kstr (s : String)
  | ktup (xs : List TElem)
deriving DecidableEq

/-- A wrapped user extractor: the callable (absent on past-tense
primitives built from the wire) and its textual name. -/
structure Quantity (α : Type) where
  fn : Option (α → QVal)
  name : Option String

/-- The aggregator tree: the four primitives of the core, each carrying
its quantity, its `entries`, and its own state / children, exactly the
mutable fields of the Python classes. -/
inductive Prim (α : Type) where
  | bag (q : Quantity α) (entries : EVal) (values : List (BKey × EVal))
  | deviate (q : Quantity α) (entries mean vte : EVal)
  | fraction (q : Quantity α) (entries : EVal) (numerator denominator : Prim α)
  | select (q : Quantity α) (entries : EVal) (cut : Prim α)

/-- The `entries` field of a primitive. -/
def Prim.entriesOf {α : Type} : Prim α → EVal
  | .bag _ e _ => e
  | .deviate _ e _ _ => e
  | .fraction _ e _ _ => e
  | .select _ e _ => e

/-- The quantity's name. -/
def Prim.qnameOf {α : Type} : Prim α → Option String
  | .bag q _ _ => q.name
  | .deviate q _ _ _ => q.name
  | .fraction q _ _ _ => q.name
  | .select q _ _ => q.name

/-- The registered factory name (`Factory.name`), the wire discriminator. -/
def Prim.primName {α : Type} : Prim α → String
  | .bag _ _ _ => "Bag"
  | .deviate _ _ _ _ => "Deviate"
  | .fraction _ _ _ _ => "Fraction"
  | .select _ _ _ => "Select"

/-- `zero()` of each primitive: same extractor, same child shape, cleared
state (Bag.zero, Deviate.zero, Fraction.zero, Select.zero in the sources). -/
def Prim.zero {α : Type} : Prim α → Prim α
  | .bag q _ _ => .bag q (.fin 0) []
  | .deviate q _ _ _ => .deviate q (.fin 0) (.fin 0) (.fin 0)
  | .fraction q _ n d => .fraction q (.fin 0) n.zero d.zero
  | .select q _ c => .select q (.fin 0) c.zero

/-- `variance` property of Deviate: varianceTimesEntries / entries when
entries is nonzero, varianceTimesEntries verbatim when entries == 0.0. -/
def devVarianceOf (e vte : EVal) : EVal :=
  if e = .fin 0 then vte else vte.div e

/-- The error raised by a failed `fill`: the quantity-type TypeError of the
sources, or the TypeError from calling the absent extractor of a past-tense
primitive. -/
inductive FillErr where
  | quantityType
  | notFillable
deriving DecidableEq

/-- Modelled from the spec: `util.floatOrNan` applied to one element of a
Bag sequence value (util.py is not among the sources).  Finite numbers
stay floats, the strings "nan"/"inf"/"-inf" become the IEEE values, and
NaN is stored as the string "nan"; anything else raises. -/
def telemOfQ : QVal → Option TElem
  | .num (.fin q) => some (.tnum q)
  | .num .pinf => some .tpinf
  | .num .ninf => some .tninf
  | .num .nan => some .tnan
  | .str "nan" => some .tnan
  | .str "inf" => some .tpinf
  | .str "-inf" => some .tninf
  | _ => none

/-- Bag._update key coercion: strings pass through; sequences coerce
elementwise with floatOrNan into a tuple; scalars coerce with floatOrNan
(NaN becomes the string "nan"); anything else is the quantity-type error. -/
def bagKeyOf : QVal → Option BKey
  | .str s => some (.kstr s)
  | .vec xs => (xs.mapM telemOfQ).map .ktup
  | .num (.fin q) => some (.knum q)
  | .num .pinf => some .kpinf
  | .num .ninf => some .kninf
  | .num .nan => some (.kstr "nan")
  | .bad => none

/-- `self.values[q] += weight` / insert: add `w` to the weight of key `k`,
or append the key. -/
def assocAdd : List (BKey × EVal) → BKey → EVal → List (BKey × EVal)
  | [], k, w => [(k, w)]
  | (k0, w0) :: rest, k, w =>
      if k0 = k then (k0, w0.add w) :: rest else (k0, w0) :: assocAdd rest k w

/-- `fill(datum, weight)`, translated statement by statement from the four
primitives.  The result pairs the raised error (if any) with the state as
the in-place-mutating Python code leaves it, so that rollback-by-construction
is a theorem, not an assumption: on an error the returned state is whatever
was already mutated before the raise. -/
def Prim.fill {α : Type} : Prim α → α → EVal → Option FillErr × Prim α
  | p@(.bag qt e vals), x, w =>
      if w.gtZero then
        match qt.fn with
        | none => (some .notFillable, p)
        | some f =>
            match bagKeyOf (f x) with
            | none => (some .quantityType, p)
            | some k => (none, .bag qt (e.add w) (assocAdd vals k w))
      else (none, p)
  | p@(.deviate qt e m v), x, w =>
      if w.gtZero then
        match qt.fn with
        | none => (some .notFillable, p)
        | some f =>
            match f x with
            | .num qv =>
                let e2 := e.add w
                if m.isNan || qv.isNan then
                  (none, .deviate qt e2 .nan .nan)
                else if m.isInf || qv.isInf then
                  let m1 := if m.isInf && qv.isInf && (m.mul qv).ltZero then EVal.nan
                            else if qv.isInf then qv else m
                  let m2 := if e2.isInf || e2.isNan then EVal.nan else m1
                  (none, .deviate qt e2 m2 .nan)
                else
                  let delta := qv.sub m
                  let shift := (delta.mul w).div e2
                  let m2 := m.add shift
                  let v2 := v.add ((w.mul delta).mul (qv.sub m2))
                  (none, .deviate qt e2 m2 v2)
            | _ => (some .quantityType, p)
      else (none, p)
  | p@(.fraction qt e num den), x, w =>
      match qt.fn with
      | none => (some .notFillable, p)
      | some f =>
          match f x with
          | .num c =>
              let wq := c.mul w
              if w.gtZero then
                match den.fill x w with
                | (some err, den2) => (some err, .fraction qt e num den2)
                | (none, den2) =>
                    if wq.gtZero then
                      match num.fill x wq with
                      | (some err, num2) => (some err, .fraction qt e num2 den2)
                      | (none, num2) => (none, .fraction qt (e.add w) num2 den2)
                    else (none, .fraction qt (e.add w) num den2)
              else
                if wq.gtZero then
                  match num.fill x wq with
                  | (some err, num2) => (some err, .fraction qt e num2 den)
                  | (none, num2) => (none, .fraction qt (e.add w) num2 den)
                else (none, .fraction qt (e.add w) num den)
          | _ => (some .quantityType, p)
  | p@(.select qt e cut), x, w =>
      match qt.fn with
      | none => (some .notFillable, p)
      | some f =>
          match f x with
          | .num c =>
              let wq := c.mul w
              if wq.gtZero then
                match cut.fill x wq with
                | (some err, cut2) => (some err, .select qt e cut2)
                | (none, cut2) => (none, .select qt (e.add w) cut2)
              else (none, .select qt (e.add w) cut)
          | _ => (some .quantityType, p)

/-- `__add__` of the four primitives.  Mismatched concrete kinds raise
ContainerException (the shape-mismatch error), modelled as `.error ()`.
Note fraction: the Python constructor initialises `entries = 0.0` and
`Fraction.__add__` never reassigns it, so the combined entries is 0.0. -/
def Prim.padd {α : Type} : Prim α → Prim α → Except Unit (Prim α)
  | .bag q1 e1 v1, .bag _ e2 v2 =>
      .ok (.bag q1 (e1.add e2) (v2.foldl (fun acc kv => assocAdd acc kv.1 kv.2) v1))
  | .deviate q1 e1 m1 s1, .deviate _ e2 m2 s2 =>
      let e := e1.add e2
      let m := if e = .fin 0 then (m1.add m2).div (.fin 2)
               else ((e1.mul m1).add (e2.mul m2)).div (e1.add e2)
      let s := (((((s1.add s2).add ((e1.mul m1).mul m1)).add
                  ((e2.mul m2).mul m2)).sub
                  (((EVal.fin 2).mul m).mul ((e1.mul m1).add (e2.mul m2)))).add
                  ((m.mul m).mul e))
      .ok (.deviate q1 e m s)
  | .fraction q1 _ n1 d1, .fraction _ _ n2 d2 =>
      match n1.padd n2 with
      | .error er => .error er
      | .ok n =>
          match d1.padd d2 with
          | .error er => .error er
          | .ok d => .ok (.fraction q1 (.fin 0) n d)
  | .select q1 e1 c1, .select _ e2 c2 =>
      match c1.padd c2 with
      | .error er => .error er
      | .ok c => .ok (.select q1 (e1.add e2) c)
  | _, _ => .error ()

/-- Modelled from the spec: equality of wrapped quantities compares the
attached name (util.py is not among the sources; the spec makes the
quantity name part of the primitive's wire identity, and round-tripping
— asserted by the spec — is only possible if the name is what equality
observes). -/
def qeq {α : Type} (q1 q2 : Quantity α) : Bool := decide (q1.name = q2.name)

/-- Insertion into a list sorted by `le`. -/
def insertB {β : Type} (le : β → β → Bool) (x : β) : List β → List β
  | [] => [x]
  | y :: ys => if le x y then x :: y :: ys else y :: insertB le x ys

/-- Insertion sort by `le` (Python `sorted`). -/
def sortB {β : Type} (le : β → β → Bool) : List β → List β
  | [] => []
  | x :: xs => insertB le x (sortB le xs)

/-- Python 2 ordering of coerced tuple elements: floats by value
(-inf below, +inf above), with the "nan" string after all floats. -/
def TElem.le (a b : TElem) : Bool :=
  match a, b with
  | .tnum x, .tnum y => decide (x ≤ y)
  | .tnum _, .tninf => false
  | .tnum _, _ => true
  | .tninf, _ => true
  | .tpinf, .tpinf => true
  | .tpinf, .tnan => true
  | .tpinf, _ => false
  | .tnan, .tnan => true
  | .tnan, _ => false

/-- Lexicographic tuple comparison. -/
def tlistLe : List TElem → List TElem → Bool
  | [], _ => true
  | _ :: _, [] => false
  | a :: as, b :: bs => if a = b then tlistLe as bs else TElem.le a b

/-- Cross-kind rank of a Bag key under Python 2 sorting (type-name order:
float < str < tuple). -/
def BKey.rank : BKey → Nat
  | .kninf => 0
  | .knum _ => 0
  | .kpinf => 0
  | .kstr _ => 1
  | .ktup _ => 2

/-- The ordering Python `sorted` applies to Bag keys. -/
def BKey.le (a b : BKey) : Bool :=
  match a, b with
  | .kninf, .kninf => true
  | .kninf, .knum _ => true
  | .kninf, .kpinf => true
  | .knum _, .kninf => false
  | .knum x, .knum y => decide (x ≤ y)
  | .knum _, .kpinf => true
  | .kpinf, .kpinf => true
  | .kpinf, .kninf => false
  | .kpinf, .knum _ => false
  | .kstr s1, .kstr s2 => decide (s1 < s2) || decide (s1 = s2)
  | .ktup x, .ktup y => tlistLe x y
  | a, b => decide (a.rank ≤ b.rank)

/-- Dictionary lookup by key. -/
def lookupKey : List (BKey × EVal) → BKey → Option EVal
  | [], _ => none
  | (k0, w0) :: rest, k => if k0 = k then some w0 else lookupKey rest k

/-- The items whose key is not the NaN sentinel "nan". -/
def bagNonNan (vals : List (BKey × EVal)) : List (BKey × EVal) :=
  vals.filter (fun kv => decide (kv.1 ≠ .kstr "nan"))

/-- `sorted(x for x in self.values.items() if x[0] != "nan")`. -/
def bagSorted (vals : List (BKey × EVal)) : List (BKey × EVal) :=
  sortB (fun a b => BKey.le a.1 b.1) (bagNonNan vals)

/-- The canonically ordered item list of a Bag: sorted non-NaN items with
the NaN entry (if any) appended, exactly the list Bag.toJsonFragment emits. -/
def canonicalBag (vals : List (BKey × EVal)) : List (BKey × EVal) :=
  bagSorted vals ++ (match lookupKey vals (.kstr "nan") with
                     | some w => [(.kstr "nan", w)]
                     | none => [])

/-- The rows Bag.__eq__ compares: sorted non-NaN items, then always one
appended ("nan", values.get("nan")) pair whose weight may be absent. -/
def bagRows (vals : List (BKey × EVal)) : List (BKey × Option EVal) :=
  (bagSorted vals).map (fun kv => (kv.1, some kv.2)) ++
    [(.kstr "nan", lookupKey vals (.kstr "nan"))]

/-- The numeric value of a float-kind key. -/
def BKey.toEVal : BKey → Option EVal
  | .knum q => some (.fin q)
  | .kpinf => some .pinf
  | .kninf => some .ninf
  | _ => none

/-- One tuple element comparison in Bag.__eq__: both elements must be
numbers (the "nan" sentinel string is not, so tuples containing NaN never
compare equal) and then numeq applies. -/
def telemEq (rtol atol : ℚ) : TElem → TElem → Bool
  | .tnum a, .tnum b => numeq rtol atol (.fin a) (.fin b)
  | .tnum _, .tpinf => numeq rtol atol (.fin 0) .pinf
  | .tnum a, .tninf => numeq rtol atol (.fin a) .ninf
  | .tpinf, .tnum a => numeq rtol atol .pinf (.fin a)
  | .tpinf, .tpinf => true
  | .tpinf, .tninf => numeq rtol atol .pinf .ninf
  | .tninf, .tnum a => numeq rtol atol .ninf (.fin a)
  | .tninf, .tpinf => numeq rtol atol .ninf .pinf
  | .tninf, .tninf => true
  | _, _ => false

/-- Pairwise comparison of two lists, false on length mismatch. -/
def listAll2 {β : Type} (f : β → β → Bool) : List β → List β → Bool
  | [], [] => true
  | a :: as, b :: bs => f a b && listAll2 f as bs
  | _, _ => false

/-- Key comparison in Bag.__eq__: strings by equality, numbers by numeq,
tuples elementwise (same length required), kinds never mix. -/
def bagKeyEq (rtol atol : ℚ) (k1 k2 : BKey) : Bool :=
  match k1, k2 with
  | .kstr s1, .kstr s2 => decide (s1 = s2)
  | .ktup x, .ktup y => decide (x.length = y.length) && listAll2 (telemEq rtol atol) x y
  | a, b =>
      match a.toEVal, b.toEVal with
      | some ea, some eb => numeq rtol atol ea eb
      | _, _ => false

/-- One row comparison in Bag.__eq__, weight included (the appended
("nan", None) pair passes only against another ("nan", None)). -/
def bagRowEq (rtol atol : ℚ) (r1 r2 : BKey × Option EVal) : Bool :=
  bagKeyEq rtol atol r1.1 r2.1 &&
    (match r1.2, r2.2 with
     | some a, some b => numeq rtol atol a b
     | none, none => decide (r1.1 = BKey.kstr "nan") && decide (r2.1 = BKey.kstr "nan")
     | _, _ => false)

/-- The whole-values part of Bag.__eq__. -/
def bagValuesEq (rtol atol : ℚ) (v1 v2 : List (BKey × EVal)) : Bool :=
  decide (v1.length = v2.length) && listAll2 (bagRowEq rtol atol) (bagRows v1) (bagRows v2)

/-- `__eq__` of the four primitives (structural equality with numeq float
tolerance).  Deviate compares the `variance` property, not
varianceTimesEntries.  Select.__eq__ compares only entries and cut —
it does not consult the quantity. -/
def Prim.peq {α : Type} (rtol atol : ℚ) : Prim α → Prim α → Bool
  | .bag q1 e1 v1, .bag q2 e2 v2 =>
      bagValuesEq rtol atol v1 v2 && qeq q1 q2 && numeq rtol atol e1 e2
  | .deviate q1 e1 m1 s1, .deviate q2 e2 m2 s2 =>
      qeq q1 q2 && numeq rtol atol e1 e2 && numeq rtol atol m1 m2 &&
        numeq rtol atol (devVarianceOf e1 s1) (devVarianceOf e2 s2)
  | .fraction q1 e1 n1 d1, .fraction q2 e2 n2 d2 =>
      numeq rtol atol e1 e2 && qeq q1 q2 && n1.peq rtol atol n2 && d1.peq rtol atol d2
  | .select _ e1 c1, .select _ e2 c2 =>
      numeq rtol atol e1 e2 && c1.peq rtol atol c2
  | _, _ => false

/-- A JSON document. -/
inductive JVal where
  | jnum (q : ℚ)
  | jstr (s : String)
  | jarr (xs : List JVal)
  | jobj (fields : List (String × JVal))
  | jnull

/-- Modelled from the spec: `util.floatToJson` — floats serialize as bare
numbers except NaN and the infinities, which serialize as the strings
"nan", "inf", "-inf". -/
def floatToJson : EVal → JVal
  | .fin q => .jnum q
  | .pinf => .jstr "inf"
  | .ninf => .jstr "-inf"
  | .nan => .jstr "nan"

/-- Serialization of one coerced tuple element (`util.rangeToJson`,
modelled from the spec: numbers are bare, sentinels are strings — the
"nan" string key is emitted verbatim). -/
def TElem.toJson : TElem → JVal
  | .tnum q => .jnum q
  | .tpinf => .jstr "inf"
  | .tninf => .jstr "-inf"
  | .tnan => .jstr "nan"

/-- Serialization of a Bag key (`util.rangeToJson`, modelled from the
spec): a number, a string, or a list of numbers/sentinels. -/
def BKey.toJson : BKey → JVal
  | .knum q => .jnum q
  | .kpinf => .jstr "inf"
  | .kninf => .jstr "-inf"
  | .kstr s => .jstr s
  | .ktup xs => .jarr (xs.map TElem.toJson)

/-- `maybeAdd`: append an optional field when its value is present. -/
def maybeField (k : String) : Option String → List (String × JVal)
  | some s => [(k, .jstr s)]
  | none => []

/-- `toJsonFragment(suppressName)`, translated from the four sources.
Bag sorts the non-NaN items and appends the NaN item; Deviate emits the
`variance` property; Fraction suppresses the children's names and emits
the numerator's quantity name once as "sub:name"; Select emits the cut
with suppressName=False. -/
def Prim.toJsonFragment {α : Type} : Prim α → Bool → JVal
  | .bag qt e vals, sup =>
      .jobj ([("entries", floatToJson e),
              ("values", .jarr ((canonicalBag vals).map
                (fun kv => .jobj [("w", floatToJson kv.2), ("v", kv.1.toJson)])))] ++
             maybeField "name" (if sup then none else qt.name))
  | .deviate qt e m s, sup =>
      .jobj ([("entries", floatToJson e),
              ("mean", floatToJson m),
              ("variance", floatToJson (devVarianceOf e s))] ++
             maybeField "name" (if sup then none else qt.name))
  | .fraction qt e n d, sup =>
      .jobj ([("entries", floatToJson e),
              ("type", .jstr n.primName),
              ("numerator", n.toJsonFragment true),
              ("denominator", d.toJsonFragment true)] ++
             maybeField "name" (if sup then none else qt.name) ++
             maybeField "sub:name" n.qnameOf)
  | .select qt e c, sup =>
      .jobj ([("entries", floatToJson e),
              ("type", .jstr c.primName),
              ("data", c.toJsonFragment false)] ++
             maybeField "name" (if sup then none else qt.name))

/-- Modelled from the spec: the top-level document
(type tag, data fragment, version). -/
def Prim.toJson {α : Type} (p : Prim α) : JVal :=
  .jobj [("type", .jstr p.primName), ("data", p.toJsonFragment false),
         ("version", .jstr "1.0")]

/-- The error kinds of deserialization: JsonFormatException, an
unregistered type tag, and the ValueError of the `.ed` constructors
(negative entries). -/
inductive PErr where
  | jsonFormat
  | unknownType
  | valueRange
deriving DecidableEq

/-- Dictionary field lookup. -/
def getField : List (String × JVal) → String → Option JVal
  | [], _ => none
  | (k, v) :: rest, key => if k = key then some v else getField rest key

/-- `hasKeys(json.keys(), required, optional)`: all required keys present
and no key outside required+optional (modelled from the spec's wire
contract; defs.py is not among the sources). -/
def hasKeys (keys req opt : List String) : Bool :=
  req.all (fun k => keys.contains k) &&
    keys.all (fun k => req.contains k || opt.contains k)

/-- A JSON value that is a number or one of the float sentinels
("nan"/"inf"/"-inf"), as accepted for `entries`, `mean`, `variance`
and Bag weights. -/
def jsonToEVal : JVal → Option EVal
  | .jnum q => some (.fin q)
  | .jstr "nan" => some .nan
  | .jstr "inf" => some .pinf
  | .jstr "-inf" => some .ninf
  | _ => none

/-- An `entries` field that must be a bare number (Fraction and Select
reject the sentinel strings: `isinstance(json["entries"], (int, long, float))`). -/
def jsonToFinite : JVal → Option EVal
  | .jnum q => some (.fin q)
  | _ => none

/-- The optional "name" field: a string, or absent/null for None. -/
def parseOptName : Option JVal → Except PErr (Option String)
  | none => .ok none
  | some (.jstr s) => .ok (some s)
  | some .jnull => .ok none
  | some _ => .error .jsonFormat

/-- `nameFromParent if name is None else name`. -/
def resolveName (nm nfp : Option String) : Option String :=
  match nm with
  | some s => some s
  | none => nfp

/-- The elements of a Bag tuple value on the wire: numbers and the float
sentinels, coerced back through floatOrNan; anything else is malformed. -/
def parseTElems : List JVal → Option (List TElem)
  | [] => some []
  | .jnum q :: rest => (parseTElems rest).map (TElem.tnum q :: ·)
  | .jstr "nan" :: rest => (parseTElems rest).map (TElem.tnan :: ·)
  | .jstr "inf" :: rest => (parseTElems rest).map (TElem.tpinf :: ·)
  | .jstr "-inf" :: rest => (parseTElems rest).map (TElem.tninf :: ·)
  | _ :: _ => none

/-- One "v" value of a Bag wire row, read back through floatOrNan:
sentinel strings and numbers become float keys (NaN again the string
"nan"), other strings stay strings, lists become tuples. -/
def parseBagKey : JVal → Except PErr BKey
  | .jnum q => .ok (.knum q)
  | .jstr "nan" => .ok (.kstr "nan")
  | .jstr "inf" => .ok .kpinf
  | .jstr "-inf" => .ok .kninf
  | .jstr s => .ok (.kstr s)
  | .jarr xs =>
      match parseTElems xs with
      | some es => .ok (.ktup es)
      | none => .error .jsonFormat
  | _ => .error .jsonFormat

/-- `values[v] = n`: dictionary assignment (overwrite or append). -/
def assocSet : List (BKey × EVal) → BKey → EVal → List (BKey × EVal)
  | [], k, w => [(k, w)]
  | (k0, w0) :: rest, k, w =>
      if k0 = k then (k0, w) :: rest else (k0, w0) :: assocSet rest k w

/-- The `{"w": ..., "v": ...}` rows of a Bag document, accumulated into
the values dictionary in order. -/
def parseBagRows : List JVal → List (BKey × EVal) → Except PErr (List (BKey × EVal))
  | [], acc => .ok acc
  | .jobj nv :: rest, acc =>
      if hasKeys (nv.map Prod.fst) ["w", "v"] [] then
        match (getField nv "w").bind jsonToEVal with
        | none => .error .jsonFormat
        | some n =>
            match getField nv "v" with
            | none => .error .jsonFormat
            | some vj =>
                match parseBagKey vj with
                | .error er => .error er
                | .ok v => parseBagRows rest (assocSet acc v n)
      else .error .jsonFormat
  | _ :: _, _ => .error .jsonFormat

/-- Bag.fromJsonFragment followed by Bag.ed (which rejects negative
entries). -/
def parseBag {α : Type} (fields : List (String × JVal)) (nfp : Option String) :
    Except PErr (Prim α) :=
  if hasKeys (fields.map Prod.fst) ["entries", "values"] ["name"] then
    match (getField fields "entries").bind jsonToEVal with
    | none => .error .jsonFormat
    | some e =>
        match parseOptName (getField fields "name") with
        | .error er => .error er
        | .ok nm =>
            match getField fields "values" with
            | some (.jarr rows) =>
                match parseBagRows rows [] with
                | .error er => .error er
                | .ok vals =>
                    if e.ltZero then .error .valueRange
                    else .ok (.bag ⟨none, resolveName nm nfp⟩ e vals)
            | _ => .error .jsonFormat
  else .error .jsonFormat

/-- Deviate.fromJsonFragment followed by Deviate.ed: sentinels allowed
for all three numbers, negative entries rejected, and
varianceTimesEntries reconstructed as variance * entries. -/
def parseDeviate {α : Type} (fields : List (String × JVal)) (nfp : Option String) :
    Except PErr (Prim α) :=
  if hasKeys (fields.map Prod.fst) ["entries", "mean", "variance"] ["name"] then
    match (getField fields "entries").bind jsonToEVal with
    | none => .error .jsonFormat
    | some e =>
        match parseOptName (getField fields "name") with
        | .error er => .error er
        | .ok nm =>
            match (getField fields "mean").bind jsonToEVal with
            | none => .error .jsonFormat
            | some m =>
                match (getField fields "variance").bind jsonToEVal with
                | none => .error .jsonFormat
                | some v =>
                    if e.ltZero then .error .valueRange
                    else .ok (.deviate ⟨none, resolveName nm nfp⟩ e m (v.mul e))
  else .error .jsonFormat

mutual

/-- An executable structural size of a JSON value, used as parser fuel. -/
def jsize : JVal → Nat
  | .jnum _ => 1
  | .jstr _ => 1
  | .jnull => 1
  | .jarr xs => 1 + jsizeArr xs
  | .jobj fields => 1 + jsizeFields fields

/-- Size of a JSON array body. -/
def jsizeArr : List JVal → Nat
  | [] => 0
  | x :: xs => jsize x + jsizeArr xs

/-- Size of a JSON object body. -/
def jsizeFields : List (String × JVal) → Nat
  | [] => 0
  | (_, v) :: rest => 1 + jsize v + jsizeFields rest

end

/-- A field of an object is smaller than the object. -/
theorem getField_jsizeLt : ∀ (fields : List (String × JVal)) (k : String) (v : JVal),
    getField fields k = some v → jsize v < jsize (JVal.jobj fields)
  | [], _, _, h => by simp [getField] at h
  | (k0, v0) :: rest, k, v, h => by
      by_cases hk : k0 = k
      · rw [getField, if_pos hk] at h
        injection h with h
        subst h
        simp only [jsize, jsizeFields]
        omega
      · rw [getField, if_neg hk] at h
        have ih := getField_jsizeLt rest k v h
        simp only [jsize, jsizeFields] at ih ⊢
        omega

/-- The registered factory names. -/
def knownType (s : String) : Bool :=
  s = "Bag" || s = "Deviate" || s = "Fraction" || s = "Select"

/-- `Factory.registered[type].fromJsonFragment(fragment, nameFromParent)`:
registry dispatch plus the per-primitive parsers, written with an explicit
recursion-depth fuel (any fuel at least the structural size of the
document is enough; the wrapper `parseFrag` below supplies it).  Fraction
parses both children with the numerator's registered factory and passes
"sub:name" to both; it then constructs through Fraction.ed directly — it
does not combine the children.  Select parses the cut with
nameFromParent=None.  An unregistered tag is the unknown-type error. -/
def parseFragF {α : Type} : Nat → String → JVal → Option String → Except PErr (Prim α)
  | _, "Bag", .jobj fields, nfp => parseBag fields nfp
  | _, "Deviate", .jobj fields, nfp => parseDeviate fields nfp
  | fuel + 1, "Fraction", .jobj fields, nfp =>
      if hasKeys (fields.map Prod.fst) ["entries", "type", "numerator", "denominator"]
          ["name", "sub:name"] then
        match (getField fields "entries").bind jsonToFinite with
        | none => .error .jsonFormat
        | some e =>
            match parseOptName (getField fields "name") with
            | .error er => .error er
            | .ok nm =>
                match getField fields "type" with
                | some (.jstr t) =>
                    if knownType t then
                      match parseOptName (getField fields "sub:name") with
                      | .error er => .error er
                      | .ok subName =>
                          match getField fields "numerator" with
                          | none => .error .jsonFormat
                          | some numJ =>
                              match getField fields "denominator" with
                              | none => .error .jsonFormat
                              | some denJ =>
                                  match parseFragF fuel t numJ subName with
                                  | .error er => .error er
                                  | .ok num =>
                                      match parseFragF fuel t denJ subName with
                                      | .error er => .error er
                                      | .ok den =>
                                          if e.ltZero then .error .valueRange
                                          else .ok (.fraction ⟨none, resolveName nm nfp⟩
                                                      e num den)
                    else .error .unknownType
                | _ => .error .jsonFormat
      else .error .jsonFormat
  | fuel + 1, "Select", .jobj fields, nfp =>
      if hasKeys (fields.map Prod.fst) ["entries", "type", "data"] ["name"] then
        match (getField fields "entries").bind jsonToFinite with
        | none => .error .jsonFormat
        | some e =>
            match parseOptName (getField fields "name") with
            | .error er => .error er
            | .ok nm =>
                match getField fields "type" with
                | some (.jstr t) =>
                    if knownType t then
                      match getField fields "data" with
                      | none => .error .jsonFormat
                      | some dataJ =>
                          match parseFragF fuel t dataJ none with
                          | .error er => .error er
                          | .ok cut =>
                              if e.ltZero then .error .valueRange
                              else .ok (.select ⟨none, resolveName nm nfp⟩ e cut)
                    else .error .unknownType
                | _ => .error .jsonFormat
      else .error .jsonFormat
  | 0, "Fraction", .jobj _, _ => .error .jsonFormat
  | 0, "Select", .jobj _, _ => .error .jsonFormat
  | _, s, _, _ => if knownType s then .error .jsonFormat else .error .unknownType

/-- The deserializer for one fragment, with enough fuel for its depth. -/
def parseFrag {α : Type} (ty : String) (j : JVal) (nfp : Option String) :
    Except PErr (Prim α) :=
  parseFragF (jsize j) ty j nfp

/-- Modelled from the spec: the top-level `Factory.fromJson` — look the
"type" tag up in the registry and hand "data" to its fromJsonFragment
(version handling is out of core scope). -/
def factoryFromJson {α : Type} : JVal → Except PErr (Prim α)
  | .jobj fields =>
      match getField fields "type", getField fields "data" with
      | some (.jstr t), some d => parseFrag t d none
      | _, _ => .error .jsonFormat
  | _ => .error .jsonFormat

/-- The round-trip check of spec property 6: serialize, deserialize, and
compare with the library's structural equality. -/
def rtCheck {α : Type} (rtol atol : ℚ) (p : Prim α) : Bool :=
  match (factoryFromJson p.toJson : Except PErr (Prim α)) with
  | .ok p2 => p2.peq rtol atol p
  | .error _ => false

/-! ### Concrete states used by the claim theorems -/

/-- An anonymous past-tense quantity. -/
def qAnon : Quantity ℚ := ⟨none, none⟩

/-- A Deviate state with one entry, mean 2, variance 0. -/
def devOne : Prim ℚ := .deviate qAnon (.fin 1) (.fin 2) (.fin 0)

/-- A Fraction with one entry over Deviate children. -/
def fracOne : Prim ℚ := .fraction qAnon (.fin 1) devOne devOne

/-- The test suite's tolerance (testspec.py sets both tolerances to 1e-12). -/
def tol12 : ℚ := 1 / 1000000000000

/-- C1.  The claim says `(A + B).entries == A.entries + B.entries` for
Fraction.  In the source, `Fraction.__add__` builds
`out = Fraction(self.quantity, None)` — whose constructor initialises
`entries = 0.0` — and never reassigns `out.entries`, so combining two
one-entry Fractions yields `entries == 0.0`, not `2.0`.  This theorem
evaluates the translated `__add__` at that failing input. -/
theorem C1_fraction_add_entries_zero :
    (fracOne.padd fracOne).toOption.map Prim.entriesOf = some (EVal.fin 0) := by
  norm_num [fracOne, devOne, Prim.padd, EVal.add, EVal.mul, EVal.sub, EVal.neg, EVal.div,
    Except.toOption, Prim.entriesOf]

/-- C2.  The claim says `P + P.zero() == P` for every primitive, Fraction
included.  Because `Fraction.__add__` drops `entries` (see C1), a
one-entry Fraction combined with its zero has `entries == 0.0` and
compares unequal to itself under the library equality at the test-suite
tolerance. -/
theorem C2_zero_identity_fails_for_fraction :
    (fracOne.padd fracOne.zero).toOption.map
        (fun r => (r.entriesOf, r.peq tol12 tol12 fracOne)) =
      some (EVal.fin 0, false) := by
  norm_num [fracOne, devOne, qAnon, Prim.padd, Prim.zero, EVal.add, EVal.mul, EVal.sub,
    EVal.neg, EVal.div, Except.toOption, Prim.entriesOf, Prim.peq, numeq, tol12,
    devVarianceOf, qeq]

/-- A Select carrying a quantity name "x". -/
def selNamed : Prim ℚ := .select ⟨none, some "x"⟩ (.fin 3) devOne

/-- The same Select but anonymous. -/
def selAnon : Prim ℚ := .select ⟨none, none⟩ (.fin 3) devOne

/-- C3 counterexample.  The claim says every primitive's equality includes
the quantity and its name, so a named and an anonymous but otherwise equal
pair compare unequal.  `Select.__eq__` compares only `entries` and `cut`
(select.py line 150) — it never consults `self.quantity` — so the named
and anonymous Selects compare equal. -/
theorem C3_select_eq_ignores_quantity_cex :
    selNamed.peq tol12 tol12 selAnon = true := by
  norm_num [selNamed, selAnon, devOne, qAnon, Prim.peq, numeq, qeq, devVarianceOf,
    EVal.div]

/-- C3 amended.  Bag, Deviate and Fraction do include the quantity name in
`__eq__`, so differing names make them unequal; Select's equality ignores
the quantity entirely (its verdict is the same expression whether or not
the two quantities agree). -/
theorem C3_quantity_in_identity_amended (rtol atol : ℚ)
    (n1 n2 : Option String) (f1 f2 : Option (ℚ → QVal)) (e m s : EVal)
    (vals : List (BKey × EVal)) (nu de c : Prim ℚ)
    (h : n1 ≠ n2) :
    (Prim.deviate ⟨f1, n1⟩ e m s).peq rtol atol (.deviate ⟨f2, n2⟩ e m s) = false ∧
    (Prim.bag ⟨f1, n1⟩ e vals).peq rtol atol (.bag ⟨f2, n2⟩ e vals) = false ∧
    (Prim.fraction ⟨f1, n1⟩ e nu de).peq rtol atol (.fraction ⟨f2, n2⟩ e nu de) = false ∧
    (Prim.select ⟨f1, n1⟩ e c).peq rtol atol (.select ⟨f2, n2⟩ e c) =
      (Prim.select ⟨f1, n1⟩ e c).peq rtol atol (.select ⟨f1, n1⟩ e c) := by
  refine ⟨?_, ?_, ?_, ?_⟩
  · simp [Prim.peq, qeq, h]
  · simp [Prim.peq, qeq, h]
  · simp [Prim.peq, qeq, h]
  · simp [Prim.peq]

/-- C3 amended, witness at a concrete named/anonymous pair. -/
theorem C3_quantity_in_identity_amended_witness :
    (some "x" ≠ (none : Option String)) ∧
    ((Prim.deviate ⟨none, some "x"⟩ (.fin 1) (.fin 2) (.fin 0) : Prim ℚ).peq tol12 tol12
        (.deviate ⟨none, none⟩ (.fin 1) (.fin 2) (.fin 0)) = false ∧
      (Prim.bag ⟨none, some "x"⟩ (.fin 1) [] : Prim ℚ).peq tol12 tol12
        (.bag ⟨none, none⟩ (.fin 1) []) = false ∧
      (Prim.fraction ⟨none, some "x"⟩ (.fin 1) devOne devOne : Prim ℚ).peq tol12 tol12
        (.fraction ⟨none, none⟩ (.fin 1) devOne devOne) = false ∧
      (Prim.select ⟨none, some "x"⟩ (.fin 1) devOne : Prim ℚ).peq tol12 tol12
        (.select ⟨none, none⟩ (.fin 1) devOne) =
        (Prim.select ⟨none, some "x"⟩ (.fin 1) devOne : Prim ℚ).peq tol12 tol12
          (.select ⟨none, some "x"⟩ (.fin 1) devOne)) :=
  ⟨by simp, C3_quantity_in_identity_amended tol12 tol12 (some "x") none none none
      (.fin 1) (.fin 2) (.fin 0) [] devOne devOne devOne (by simp)⟩

/-- C6.  Deviate NaN poisoning: once `mean` is NaN, a fill with any finite
input and positive weight takes the `isnan` branch of `Deviate.fill`
(deviate.py lines 118-120), which sets mean and varianceTimesEntries to
NaN again; the observable `variance` is then NaN as well.  Entries still
advances by the weight. -/
theorem C6_deviate_nan_poisoning (qt : Quantity ℚ) (f : ℚ → QVal) (e vte : EVal)
    (x : ℚ) (w : EVal) (r : ℚ)
    (hf : qt.fn = some f) (hx : f x = .num (.fin r)) (hw : w.gtZero = true) :
    (Prim.deviate qt e .nan vte).fill x w = (none, .deviate qt (e.add w) .nan .nan) ∧
      devVarianceOf (e.add w) .nan = .nan := by
  constructor
  · simp [Prim.fill, hf, hx, hw, EVal.isNan]
  · unfold devVarianceOf
    split
    · rfl
    · simp [EVal.div]

/-- C6 witness: a Deviate with entries 2 and NaN mean, filled with the
finite input 3 at weight 1. -/
theorem C6_deviate_nan_poisoning_witness :
    (Prim.deviate ⟨some (fun _ => .num (.fin 3)), none⟩ (.fin 2) .nan (.fin 5) : Prim ℚ).fill
        7 (.fin 1) =
      (none, .deviate ⟨some (fun _ => .num (.fin 3)), none⟩ ((EVal.fin 2).add (.fin 1))
        .nan .nan) ∧
      devVarianceOf ((EVal.fin 2).add (.fin 1)) .nan = .nan :=
  C6_deviate_nan_poisoning ⟨some (fun _ => .num (.fin 3)), none⟩
    (fun _ => .num (.fin 3)) (.fin 2) (.fin 5) 7 (.fin 1) 3 rfl rfl rfl

/-- C10.  Select.fill and Fraction.fill add `weight` to `entries` whenever
the selector returns a number — for every real weight, zero, negative and
NaN included — while the children are filled only under the strictly
positive guards: the cut/numerator when `selector(datum) * weight > 0`,
the denominator when `weight > 0` (select.py lines 93-103, fraction.py
lines 107-120).  Hence `entries` can decrease or become NaN through fill
alone. -/
theorem C10_select_fraction_fill_semantics
    (qt : Quantity ℚ) (f : ℚ → QVal) (e : EVal) (cut num den : Prim ℚ)
    (x : ℚ) (w c : EVal)
    (hf : qt.fn = some f) (hx : f x = .num c)
    (hcut : (cut.fill x (c.mul w)).1 = none)
    (hden : (den.fill x w).1 = none)
    (hnum : (num.fill x (c.mul w)).1 = none) :
    (Prim.select qt e cut).fill x w =
      (none, .select qt (e.add w)
        (if (c.mul w).gtZero then (cut.fill x (c.mul w)).2 else cut)) ∧
    (Prim.fraction qt e num den).fill x w =
      (none, .fraction qt (e.add w)
        (if (c.mul w).gtZero then (num.fill x (c.mul w)).2 else num)
        (if w.gtZero then (den.fill x w).2 else den)) := by
  rcases hc : cut.fill x (c.mul w) with ⟨oc, cut2⟩
  rw [hc] at hcut
  simp only at hcut
  subst hcut
  rcases hd : den.fill x w with ⟨od, den2⟩
  rw [hd] at hden
  simp only at hden
  subst hden
  rcases hn : num.fill x (c.mul w) with ⟨onum, num2⟩
  rw [hn] at hnum
  simp only at hnum
  subst hnum
  constructor
  · by_cases hg : (c.mul w).gtZero = true
    · simp [Prim.fill, hf, hx, hg, hc]
    · simp only [Bool.not_eq_true] at hg
      simp [Prim.fill, hf, hx, hg, hc]
  · by_cases hgw : w.gtZero = true
    · by_cases hg : (c.mul w).gtZero = true
      · simp [Prim.fill, hf, hx, hg, hgw, hc, hd, hn]
      · simp only [Bool.not_eq_true] at hg
        simp [Prim.fill, hf, hx, hg, hgw, hc, hd, hn]
    · simp only [Bool.not_eq_true] at hgw
      by_cases hg : (c.mul w).gtZero = true
      · simp [Prim.fill, hf, hx, hg, hgw, hc, hd, hn]
      · simp only [Bool.not_eq_true] at hg
        simp [Prim.fill, hf, hx, hg, hgw, hc, hd, hn]

/-- A present-tense quantity returning the constant 1. -/
def qAnonF : Quantity ℚ := ⟨some (fun _ => .num (.fin 1)), none⟩

/-- C10 witness: NaN weight.  Both fills succeed, no child is touched
(NaN * selector is not > 0), and entries becomes NaN. -/
theorem C10_select_fraction_fill_semantics_witness :
    (Prim.select qAnonF (.fin 3) devOne : Prim ℚ).fill 7 .nan =
      (none, .select qAnonF ((EVal.fin 3).add .nan)
        (if ((EVal.fin 1).mul .nan).gtZero then (devOne.fill 7 ((EVal.fin 1).mul .nan)).2
         else devOne)) ∧
    (Prim.fraction qAnonF (.fin 3) devOne devOne : Prim ℚ).fill 7 .nan =
      (none, .fraction qAnonF ((EVal.fin 3).add .nan)
        (if ((EVal.fin 1).mul .nan).gtZero then (devOne.fill 7 ((EVal.fin 1).mul .nan)).2
         else devOne)
        (if (EVal.nan).gtZero then (devOne.fill 7 .nan).2 else devOne)) :=
  C10_select_fraction_fill_semantics qAnonF (fun _ => .num (.fin 1)) (.fin 3)
    devOne devOne devOne 7 .nan (.fin 1) rfl rfl
    (by simp [devOne, Prim.fill, EVal.mul, EVal.gtZero])
    (by simp [devOne, Prim.fill, EVal.gtZero])
    (by simp [devOne, Prim.fill, EVal.mul, EVal.gtZero])

/-! ### C9: loading a Fraction with incompatible children -/

/-- A Deviate fragment. -/
def devFragJ : JVal := .jobj [("entries", .jnum 1), ("mean", .jnum 0), ("variance", .jnum 0)]

/-- A Bag fragment. -/
def bagFragJ : JVal :=
  .jobj [("entries", .jnum 1), ("values", .jarr [.jobj [("w", .jnum 1), ("v", .jnum 5)]])]

/-- A Select-over-Deviate fragment. -/
def selDevFragJ : JVal :=
  .jobj [("entries", .jnum 1), ("type", .jstr "Deviate"), ("data", devFragJ)]

/-- A Select-over-Bag fragment. -/
def selBagFragJ : JVal :=
  .jobj [("entries", .jnum 1), ("type", .jstr "Bag"), ("data", bagFragJ)]

/-- A Fraction document whose numerator (Select over Deviate) and
denominator (Select over Bag) have incompatible shapes: adding them would
raise the shape-mismatch ContainerException. -/
def mismatchedFracJ : JVal :=
  .jobj [("entries", .jnum 2), ("type", .jstr "Select"),
         ("numerator", selDevFragJ), ("denominator", selBagFragJ)]

/-- The numerator deserialized from `mismatchedFracJ`. -/
def selDevP : Prim ℚ :=
  .select ⟨none, none⟩ (.fin 1) (.deviate ⟨none, none⟩ (.fin 1) (.fin 0) (.fin 0))

/-- The denominator deserialized from `mismatchedFracJ`. -/
def selBagP : Prim ℚ :=
  .select ⟨none, none⟩ (.fin 1) (.bag ⟨none, none⟩ (.fin 1) [(.knum 5, .fin 1)])

/-- C9 counterexample.  The claim says loading a Fraction whose numerator
and denominator are shape-incompatible fails with a shape-mismatch error.
`Fraction.fromJsonFragment` (fraction.py lines 145-176) builds the result
with `Fraction.ed` directly and never combines the children — only
`Fraction.build` does, and it is not called on the load path — so the
mismatched document deserializes successfully. -/
theorem C9_fraction_load_no_shape_validation_cex :
    (parseFrag "Fraction" mismatchedFracJ none : Except PErr (Prim ℚ)) =
      .ok (.fraction ⟨none, none⟩ (.fin 2) selDevP selBagP) := by
  have h1 : ¬((2 : ℚ) < 0) := by norm_num
  have h2 : ¬((1 : ℚ) < 0) := by norm_num
  have h3 : (EVal.fin 0).mul (.fin 1) = .fin 0 := by simp [EVal.mul]
  simp [parseFrag, mismatchedFracJ, selDevFragJ, selBagFragJ, devFragJ, bagFragJ,
    jsize, jsizeFields, jsizeArr, parseFragF, parseBag, parseDeviate, hasKeys, getField,
    jsonToEVal, jsonToFinite, parseOptName, resolveName, knownType, EVal.ltZero, h1, h2, h3,
    parseBagRows, parseBagKey, assocSet, selDevP, selBagP]

/-- C9 amended: the load path performs no combine-based shape validation —
the mismatched document loads successfully even though combining its two
children fails with the shape-mismatch error (the validation-by-combining
the spec describes exists only in Fraction.build). -/
theorem C9_fraction_load_amended :
    (parseFrag "Fraction" mismatchedFracJ none : Except PErr (Prim ℚ)).isOk = true ∧
      selDevP.padd selBagP = .error () := by
  constructor
  · have h1 : ¬((2 : ℚ) < 0) := by norm_num
    have h2 : ¬((1 : ℚ) < 0) := by norm_num
    have h3 : (EVal.fin 0).mul (.fin 1) = .fin 0 := by simp [EVal.mul]
    simp [parseFrag, mismatchedFracJ, selDevFragJ, selBagFragJ, devFragJ, bagFragJ,
      jsize, jsizeFields, jsizeArr, parseFragF, parseBag, parseDeviate, hasKeys, getField,
      jsonToEVal, jsonToFinite, parseOptName, resolveName, knownType, EVal.ltZero, h1, h2, h3,
      parseBagRows, parseBagKey, assocSet, Except.isOk, Except.toBool]
  · simp [selDevP, selBagP, Prim.padd]

/-! ### C5: Deviate combine in exact (rational) arithmetic -/

/-- A Deviate state in exact arithmetic: (entries, mean, varianceTimesEntries)
as rationals, the reading the claim poses for exact-arithmetic questions. -/
structure DevQ where
  entries : ℚ
  mean : ℚ
  vte : ℚ
deriving DecidableEq

/-- `Deviate.__add__` with exact rational arithmetic, term for term the
formula of deviate.py lines 96-101: entries sum; the mean is the
entries-weighted mean, except `(mean1 + mean2) / 2` when the combined
entries is zero; and the algebraically expanded varianceTimesEntries. -/
def devAddQ (a b : DevQ) : DevQ :=
  let e := a.entries + b.entries
  let m := if e = 0 then (a.mean + b.mean) / 2
           else (a.entries * a.mean + b.entries * b.mean) / (a.entries + b.entries)
  ⟨e, m,
    a.vte + b.vte + a.entries * a.mean * a.mean + b.entries * b.mean * b.mean
      - 2 * m * (a.entries * a.mean + b.entries * b.mean) + m * m * e⟩

/-- Bridge between the float model and the exact model: on finite states,
the translated `Deviate.__add__` computes exactly the `devAddQ` fields. -/
theorem padd_deviate_devAddQ {α : Type} (q1 q2 : Quantity α) (ea ma sa eb mb sb : ℚ) :
    Prim.padd (.deviate q1 (.fin ea) (.fin ma) (.fin sa))
        (.deviate q2 (.fin eb) (.fin mb) (.fin sb)) =
      .ok (.deviate q1 (.fin (devAddQ ⟨ea, ma, sa⟩ ⟨eb, mb, sb⟩).entries)
        (.fin (devAddQ ⟨ea, ma, sa⟩ ⟨eb, mb, sb⟩).mean)
        (.fin (devAddQ ⟨ea, ma, sa⟩ ⟨eb, mb, sb⟩).vte)) := by
  have h2 : (2 : ℚ) ≠ 0 := two_ne_zero
  by_cases h : ea + eb = 0
  · simp [Prim.padd, devAddQ, EVal.add, EVal.mul, EVal.sub, EVal.neg, EVal.div, h, h2]
    all_goals (first | rfl | ring)
  · simp [Prim.padd, devAddQ, EVal.add, EVal.mul, EVal.sub, EVal.neg, EVal.div, h, h2]
    all_goals (first | rfl | ring)

/-- C5 counterexample.  With all three entries equal to zero, the
`(mean1 + mean2) / 2` special case of `Deviate.__add__` is not associative
even in exact arithmetic: grouping `(A + B) + C` on zero-entry states with
means 0, 0, 4 gives mean 2, while `A + (B + C)` gives mean 1. -/
theorem C5_deviate_assoc_zero_entries_cex :
    devAddQ (devAddQ ⟨0, 0, 0⟩ ⟨0, 0, 0⟩) ⟨0, 4, 0⟩ ≠
      devAddQ ⟨0, 0, 0⟩ (devAddQ ⟨0, 0, 0⟩ ⟨0, 4, 0⟩) := by
  norm_num [devAddQ]

/-- For nonzero combined entries, `devAddQ` has the symmetric closed form
(sum of entries, weighted mean, sums-of-squares expansion). -/
theorem devAddQ_pos (x y : DevQ) (h : x.entries + y.entries ≠ 0) :
    devAddQ x y = ⟨x.entries + y.entries,
      (x.entries * x.mean + y.entries * y.mean) / (x.entries + y.entries),
      x.vte + y.vte + x.entries * x.mean ^ 2 + y.entries * y.mean ^ 2 -
        (x.entries * x.mean + y.entries * y.mean) ^ 2 / (x.entries + y.entries)⟩ := by
  obtain ⟨e1, m1, s1⟩ := x
  obtain ⟨e2, m2, s2⟩ := y
  simp only at h
  simp only [devAddQ, h, if_neg, if_false, DevQ.mk.injEq, eq_self_iff_true, true_and]
  field_simp
  ring

/-- On two zero-entry states `devAddQ` averages the means and sums the
varianceTimesEntries. -/
theorem devAddQ_zeroCase (m1 s1 m2 s2 : ℚ) :
    devAddQ ⟨0, m1, s1⟩ ⟨0, m2, s2⟩ = ⟨0, (m1 + m2) / 2, s1 + s2⟩ := by
  simp only [devAddQ, DevQ.mk.injEq]
  norm_num

set_option maxHeartbeats 1600000 in
/-- C5 amended.  `Deviate.__add__` is exactly associative in exact
rational arithmetic for all states with non-negative entries whose total
entries is nonzero; the claim's inclusion of the all-zero-entries states
fails (see the counterexample), because the `(mean1 + mean2) / 2` zero
case is not associative. -/
theorem C5_deviate_assoc_amended (a b c : DevQ)
    (ha : 0 ≤ a.entries) (hb : 0 ≤ b.entries) (hc : 0 ≤ c.entries)
    (hsum : a.entries + b.entries + c.entries ≠ 0) :
    devAddQ (devAddQ a b) c = devAddQ a (devAddQ b c) := by
  obtain ⟨ea, ma, sa⟩ := a
  obtain ⟨eb, mb, sb⟩ := b
  obtain ⟨ec, mc, sc⟩ := c
  simp only at ha hb hc hsum
  by_cases hab : ea + eb = 0
  · have hea : ea = 0 := by linarith
    have heb : eb = 0 := by linarith
    subst hea
    subst heb
    have hec : ec ≠ 0 := by
      intro h0
      exact hsum (by rw [h0]; ring)
    have hbc : (0 : ℚ) + ec ≠ 0 := by simpa using hec
    rw [devAddQ_zeroCase]
    rw [devAddQ_pos ⟨0, (ma + mb) / 2, sa + sb⟩ ⟨ec, mc, sc⟩ (by simpa using hec)]
    rw [devAddQ_pos ⟨0, mb, sb⟩ ⟨ec, mc, sc⟩ (by simpa using hec)]
    rw [devAddQ_pos ⟨0, ma, sa⟩ _ (by simpa using hec)]
    simp only [DevQ.mk.injEq]
    refine ⟨by ring, ?_, ?_⟩
    · field_simp
    · field_simp
      ring
  · by_cases hbc : eb + ec = 0
    · have heb : eb = 0 := by linarith
      have hec : ec = 0 := by linarith
      subst heb
      subst hec
      have hea : ea ≠ 0 := by
        intro h0
        exact hsum (by rw [h0]; ring)
      rw [devAddQ_pos ⟨ea, ma, sa⟩ ⟨0, mb, sb⟩ (by simpa using hea)]
      rw [devAddQ_zeroCase]
      rw [devAddQ_pos _ ⟨0, mc, sc⟩ (by simpa using hea)]
      rw [devAddQ_pos ⟨ea, ma, sa⟩ ⟨0, (mb + mc) / 2, sb + sc⟩ (by simpa using hea)]
      simp only [DevQ.mk.injEq]
      refine ⟨by ring, ?_, ?_⟩
      · field_simp
      · field_simp
        ring
    · have htot2 : (ea + eb) + ec ≠ 0 := hsum
      have htot3 : ea + (eb + ec) ≠ 0 := by rw [← add_assoc]; exact hsum
      rw [devAddQ_pos ⟨ea, ma, sa⟩ ⟨eb, mb, sb⟩ hab]
      rw [devAddQ_pos ⟨eb, mb, sb⟩ ⟨ec, mc, sc⟩ hbc]
      rw [devAddQ_pos _ ⟨ec, mc, sc⟩ (by simpa using htot2)]
      rw [devAddQ_pos ⟨ea, ma, sa⟩ _ (by simpa using htot3)]
      simp only [DevQ.mk.injEq]
      refine ⟨by ring, ?_, ?_⟩
      · field_simp
        ring
      · field_simp
        ring

/-- C5 amended, witness: two one-entry states and a two-entry state. -/
theorem C5_deviate_assoc_amended_witness :
    devAddQ (devAddQ ⟨1, 0, 0⟩ ⟨1, 2, 0⟩) ⟨2, 3, 4⟩ =
      devAddQ ⟨1, 0, 0⟩ (devAddQ ⟨1, 2, 0⟩ ⟨2, 3, 4⟩) :=
  C5_deviate_assoc_amended ⟨1, 0, 0⟩ ⟨1, 2, 0⟩ ⟨2, 3, 4⟩ (by norm_num) (by norm_num)
    (by norm_num) (by norm_num)

/-- Two primitives have the same quantity skeleton: same constructors and
the same quantity object at every node, with arbitrary states.  This is
the relationship between a Fraction's numerator and denominator, which
`Fraction.__init__` creates as two `value.zero()` clones sharing the
quantity functions. -/
inductive QSkelEq {α : Type} : Prim α → Prim α → Prop where
  | bag : ∀ (qt : Quantity α) e1 v1 e2 v2, QSkelEq (.bag qt e1 v1) (.bag qt e2 v2)
  | deviate : ∀ (qt : Quantity α) e1 m1 s1 e2 m2 s2,
      QSkelEq (.deviate qt e1 m1 s1) (.deviate qt e2 m2 s2)
  | fraction : ∀ (qt : Quantity α) e1 n1 d1 e2 n2 d2, QSkelEq n1 n2 → QSkelEq d1 d2 →
      QSkelEq (.fraction qt e1 n1 d1) (.fraction qt e2 n2 d2)
  | select : ∀ (qt : Quantity α) e1 c1 e2 c2, QSkelEq c1 c2 →
      QSkelEq (.select qt e1 c1) (.select qt e2 c2)

/-- Quantity-skeleton equality is symmetric. -/
theorem QSkelEq.symm {α : Type} {a b : Prim α} (h : QSkelEq a b) : QSkelEq b a := by
  induction h with
  | bag qt e1 v1 e2 v2 => exact .bag qt e2 v2 e1 v1
  | deviate qt e1 m1 s1 e2 m2 s2 => exact .deviate qt e2 m2 s2 e1 m1 s1
  | fraction qt e1 n1 d1 e2 n2 d2 hn hd ihn ihd => exact .fraction qt e2 n2 d2 e1 n1 d1 ihn ihd
  | select qt e1 c1 e2 c2 hc ihc => exact .select qt e2 c2 e1 c1 ihc

/-- Library-constructible shape: at every Fraction node the two children
share one quantity skeleton (as produced by `Fraction.__init__` /
`Fraction.zero` / `Fraction.__add__`). -/
def SharedQ {α : Type} : Prim α → Prop
  | .bag _ _ _ => True
  | .deviate _ _ _ _ => True
  | .fraction _ _ n d => QSkelEq n d ∧ SharedQ n ∧ SharedQ d
  | .select _ _ c => SharedQ c

/-- Scaling by two positive weights preserves the sign test: whether
`selector * weight` is strictly positive does not depend on which
strictly positive weight multiplies it. -/
theorem mul_gtZero_congr (c w1 w2 : EVal) (h1 : w1.gtZero = true) (h2 : w2.gtZero = true) :
    (c.mul w1).gtZero = (c.mul w2).gtZero := by
  rcases c with q | _ | _ | _ <;> rcases w1 with a | _ | _ | _ <;>
    rcases w2 with b | _ | _ | _ <;>
    simp_all [EVal.mul, EVal.gtZero] <;>
    (try split_ifs) <;>
    simp_all [EVal.gtZero] <;>
    constructor <;> intro hq <;> nlinarith

/-- A Deviate fill with a numeric extractor value never raises. -/
theorem fill_deviate_num_fst {α : Type} (qt : Quantity α) (e m s : EVal) (x : α)
    (w : EVal) (f : α → QVal) (v : EVal) (hf : qt.fn = some f) (hx : f x = .num v)
    (hw : w.gtZero = true) :
    ((Prim.deviate qt e m s).fill x w).1 = none := by
  simp only [Prim.fill, hf, hx, hw, if_true]
  split
  · rfl
  · split
    · rfl
    · rfl

/-- Whether `fill` raises (and which error) depends only on the quantity
skeleton, the datum, and the weights being strictly positive — not on the
accumulated state.  This is why a Fraction's numerator cannot raise after
its same-skeleton denominator was filled successfully. -/
theorem fill_err_congr {α : Type} {a b : Prim α} (h : QSkelEq a b) :
    ∀ (x : α) (w1 w2 : EVal), w1.gtZero = true → w2.gtZero = true →
      (a.fill x w1).1 = (b.fill x w2).1 := by
  induction h with
  | bag qt e1 v1 e2 v2 =>
      intro x w1 w2 h1 h2
      rcases hf : qt.fn with _ | f
      · simp [Prim.fill, h1, h2, hf]
      · rcases hk : bagKeyOf (f x) with _ | k <;> simp [Prim.fill, h1, h2, hf, hk]
  | deviate qt e1 m1 s1 e2 m2 s2 =>
      intro x w1 w2 h1 h2
      rcases hf : qt.fn with _ | f
      · simp [Prim.fill, h1, h2, hf]
      · rcases hx : f x with v | s | l | _
        · rw [fill_deviate_num_fst qt e1 m1 s1 x w1 f v hf hx h1,
            fill_deviate_num_fst qt e2 m2 s2 x w2 f v hf hx h2]
        · simp [Prim.fill, h1, h2, hf, hx]
        · simp [Prim.fill, h1, h2, hf, hx]
        · simp [Prim.fill, h1, h2, hf, hx]
  | fraction qt e1 n1 d1 e2 n2 d2 hn hd ihn ihd =>
      intro x w1 w2 h1 h2
      rcases hf : qt.fn with _ | f
      · simp [Prim.fill, hf]
      · rcases hx : f x with v | s | l | _
        · have hg := mul_gtZero_congr v w1 w2 h1 h2
          have hdf := ihd x w1 w2 h1 h2
          simp only [Prim.fill, hf, hx, h1, h2, if_true]
          by_cases hgw : (v.mul w1).gtZero = true
          · have hgw2 : (v.mul w2).gtZero = true := by rw [← hg]; exact hgw
            have hnf := ihn x (v.mul w1) (v.mul w2) hgw hgw2
            rcases hd1 : d1.fill x w1 with ⟨od1, d1s⟩
            rcases hd2 : d2.fill x w2 with ⟨od2, d2s⟩
            rw [hd1, hd2] at hdf
            simp only at hdf
            subst hdf
            rcases od1 with _ | er
            · simp only [hgw, hgw2, if_true]
              rcases hn1 : n1.fill x (v.mul w1) with ⟨on1, n1s⟩
              rcases hn2 : n2.fill x (v.mul w2) with ⟨on2, n2s⟩
              rw [hn1, hn2] at hnf
              simp only at hnf
              subst hnf
              rcases on1 with _ | er2 <;> rfl
            · rfl
          · have hgw2 : ¬(v.mul w2).gtZero = true := by rw [← hg]; exact hgw
            simp only [Bool.not_eq_true] at hgw hgw2
            rcases hd1 : d1.fill x w1 with ⟨od1, d1s⟩
            rcases hd2 : d2.fill x w2 with ⟨od2, d2s⟩
            rw [hd1, hd2] at hdf
            simp only at hdf
            subst hdf
            simp only [hgw, hgw2]
            rcases od1 with _ | er <;> rfl
        · simp [Prim.fill, hf, hx]
        · simp [Prim.fill, hf, hx]
        · simp [Prim.fill, hf, hx]
  | select qt e1 c1 e2 c2 hc ihc =>
      intro x w1 w2 h1 h2
      rcases hf : qt.fn with _ | f
      · simp [Prim.fill, hf]
      · rcases hx : f x with v | s | l | _
        · have hg := mul_gtZero_congr v w1 w2 h1 h2
          simp only [Prim.fill, hf, hx]
          by_cases hgw : (v.mul w1).gtZero = true
          · have hgw2 : (v.mul w2).gtZero = true := by rw [← hg]; exact hgw
            have hcf := ihc x (v.mul w1) (v.mul w2) hgw hgw2
            rcases hc1 : c1.fill x (v.mul w1) with ⟨oc1, c1s⟩
            rcases hc2 : c2.fill x (v.mul w2) with ⟨oc2, c2s⟩
            rw [hc1, hc2] at hcf
            simp only at hcf
            subst hcf
            simp only [hgw, hgw2, if_true]
            rcases oc1 with _ | er <;> rfl
          · have hgw2 : ¬(v.mul w2).gtZero = true := by rw [← hg]; exact hgw
            simp only [Bool.not_eq_true] at hgw hgw2
            simp [hgw, hgw2]
        · simp [Prim.fill, hf, hx]
        · simp [Prim.fill, hf, hx]
        · simp [Prim.fill, hf, hx]

/-- Rollback-by-construction: on a library-constructible tree, a `fill`
that raises leaves the entire tree exactly as it was — every state update
sits after the last possible raise, and a child that raises does so
before any sibling or ancestor mutates. -/
theorem fill_rollback {α : Type} : ∀ (p : Prim α) (x : α) (w : EVal) (er : FillErr)
    (res : Prim α), SharedQ p → p.fill x w = (some er, res) → res = p := by
  intro p
  induction p with
  | bag qt e vals =>
      intro x w er res _ h
      by_cases hw : w.gtZero = true
      · rcases hf : qt.fn with _ | f
        · simp only [Prim.fill, hw, hf, if_true] at h
          exact ((Prod.mk.injEq _ _ _ _ ▸ h).2).symm
        · rcases hk : bagKeyOf (f x) with _ | k <;>
            simp only [Prim.fill, hw, hf, hk, if_true] at h
          · exact ((Prod.mk.injEq _ _ _ _ ▸ h).2).symm
          · simp at h
      · simp only [Bool.not_eq_true] at hw
        simp [Prim.fill, hw] at h
  | deviate qt e m v =>
      intro x w er res _ h
      by_cases hw : w.gtZero = true
      · rcases hf : qt.fn with _ | f
        · simp only [Prim.fill, hw, hf, if_true] at h
          exact ((Prod.mk.injEq _ _ _ _ ▸ h).2).symm
        · rcases hx : f x with qv | s | l | _ <;>
            simp only [Prim.fill, hw, hf, hx, if_true] at h
          · split at h
            · simp at h
            · split at h <;> simp at h
          · exact ((Prod.mk.injEq _ _ _ _ ▸ h).2).symm
          · exact ((Prod.mk.injEq _ _ _ _ ▸ h).2).symm
          · exact ((Prod.mk.injEq _ _ _ _ ▸ h).2).symm
      · simp only [Bool.not_eq_true] at hw
        simp [Prim.fill, hw] at h
  | fraction qt e num den ihn ihd =>
      intro x w er res hs h
      obtain ⟨hskel, hsn, hsd⟩ := hs
      rcases hf : qt.fn with _ | f
      · simp only [Prim.fill, hf] at h
        exact ((Prod.mk.injEq _ _ _ _ ▸ h).2).symm
      · rcases hx : f x with v | s | l | _
        · rcases hden : den.fill x w with ⟨od, den2⟩
          rcases hnum : num.fill x (v.mul w) with ⟨onum, num2⟩
          by_cases hgw : w.gtZero = true
          · by_cases hgq : (v.mul w).gtZero = true
            · simp only [Prim.fill, hf, hx, hgw, hgq, hden, hnum, if_true] at h
              rcases od with _ | errd
              · rcases onum with _ | errn
                · simp at h
                · exfalso
                  have hc := fill_err_congr hskel x (v.mul w) w hgq hgw
                  rw [hnum, hden] at hc
                  simp at hc
              · obtain ⟨h1, h2⟩ := Prod.mk.injEq _ _ _ _ ▸ h
                rw [← h2, ihd _ _ _ _ hsd hden]
            · simp only [Bool.not_eq_true] at hgq
              simp only [Prim.fill, hf, hx, hgw, hgq, hden, hnum, if_true,
                Bool.false_eq_true, if_false] at h
              rcases od with _ | errd
              · simp at h
              · obtain ⟨h1, h2⟩ := Prod.mk.injEq _ _ _ _ ▸ h
                rw [← h2, ihd _ _ _ _ hsd hden]
          · simp only [Bool.not_eq_true] at hgw
            by_cases hgq : (v.mul w).gtZero = true
            · simp only [Prim.fill, hf, hx, hgw, hgq, hnum, Bool.false_eq_true, if_false,
                if_true] at h
              rcases onum with _ | errn
              · simp at h
              · obtain ⟨h1, h2⟩ := Prod.mk.injEq _ _ _ _ ▸ h
                rw [← h2, ihn _ _ _ _ hsn hnum]
            · simp only [Bool.not_eq_true] at hgq
              simp [Prim.fill, hf, hx, hgw, hgq] at h
        · simp only [Prim.fill, hf, hx] at h
          exact ((Prod.mk.injEq _ _ _ _ ▸ h).2).symm
        · simp only [Prim.fill, hf, hx] at h
          exact ((Prod.mk.injEq _ _ _ _ ▸ h).2).symm
        · simp only [Prim.fill, hf, hx] at h
          exact ((Prod.mk.injEq _ _ _ _ ▸ h).2).symm
  | select qt e cut ihc =>
      intro x w er res hs h
      rcases hf : qt.fn with _ | f
      · simp only [Prim.fill, hf] at h
        exact ((Prod.mk.injEq _ _ _ _ ▸ h).2).symm
      · rcases hx : f x with v | s | l | _
        · rcases hcut : cut.fill x (v.mul w) with ⟨oc, cut2⟩
          by_cases hgq : (v.mul w).gtZero = true
          · simp only [Prim.fill, hf, hx, hgq, hcut, if_true] at h
            rcases oc with _ | errc
            · simp at h
            · obtain ⟨h1, h2⟩ := Prod.mk.injEq _ _ _ _ ▸ h
              rw [← h2, ihc _ _ _ _ hs hcut]
          · simp only [Bool.not_eq_true] at hgq
            simp [Prim.fill, hf, hx, hgq] at h
        · simp only [Prim.fill, hf, hx] at h
          exact ((Prod.mk.injEq _ _ _ _ ▸ h).2).symm
        · simp only [Prim.fill, hf, hx] at h
          exact ((Prod.mk.injEq _ _ _ _ ▸ h).2).symm
        · simp only [Prim.fill, hf, hx] at h
          exact ((Prod.mk.injEq _ _ _ _ ▸ h).2).symm

/-- The fill call consults the primitive's own extractor (the weight
guards of Bag/Deviate pass; Fraction and Select always evaluate it) and
the extractor's value is outside the primitive's contract. -/
def IllTypedAt {α : Type} : Prim α → α → EVal → Prop
  | .bag qt _ _, x, w => w.gtZero = true ∧ ∃ f, qt.fn = some f ∧ bagKeyOf (f x) = none
  | .deviate qt _ _ _, x, w => w.gtZero = true ∧ ∃ f, qt.fn = some f ∧ ∀ v, f x ≠ .num v
  | .fraction qt _ _ _, x, _ => ∃ f, qt.fn = some f ∧ ∀ v, f x ≠ .num v
  | .select qt _ _, x, _ => ∃ f, qt.fn = some f ∧ ∀ v, f x ≠ .num v

/-- C7.  A fill call in which the extractor returns an ill-typed value
fails with the quantity-type error, and any failing fill — the ill-typed
extractor may sit arbitrarily deep in the tree — leaves the whole
aggregator tree's state (entries and all other fields, children
included) exactly as before the call. -/
theorem C7_quantity_type_rollback {α : Type} (p : Prim α) (x : α) (w : EVal)
    (hs : SharedQ p) :
    (∀ (er : FillErr) (res : Prim α), p.fill x w = (some er, res) → res = p) ∧
    (IllTypedAt p x w → p.fill x w = (some .quantityType, p)) := by
  constructor
  · intro er res h
    exact fill_rollback p x w er res hs h
  · intro hill
    cases p with
    | bag qt e vals =>
        obtain ⟨hw, f, hf, hk⟩ := hill
        simp [Prim.fill, hw, hf, hk]
    | deviate qt e m v =>
        obtain ⟨hw, f, hf, hnn⟩ := hill
        rcases hx : f x with qv | s | l | _
        · exact absurd hx (hnn qv)
        · simp [Prim.fill, hw, hf, hx]
        · simp [Prim.fill, hw, hf, hx]
        · simp [Prim.fill, hw, hf, hx]
    | fraction qt e num den =>
        obtain ⟨f, hf, hnn⟩ := hill
        rcases hx : f x with qv | s | l | _
        · exact absurd hx (hnn qv)
        · simp [Prim.fill, hf, hx]
        · simp [Prim.fill, hf, hx]
        · simp [Prim.fill, hf, hx]
    | select qt e cut =>
        obtain ⟨f, hf, hnn⟩ := hill
        rcases hx : f x with qv | s | l | _
        · exact absurd hx (hnn qv)
        · simp [Prim.fill, hf, hx]
        · simp [Prim.fill, hf, hx]
        · simp [Prim.fill, hf, hx]

/-- A Fraction whose own selector returns a string (ill-typed). -/
def fracIll : Prim ℚ :=
  .fraction ⟨some (fun _ => .str "oops"), none⟩ (.fin 1) devOne devOne

/-- C7 witness: the ill-typed Fraction fill raises the quantity-type
error and returns the tree unchanged. -/
theorem C7_quantity_type_rollback_witness :
    SharedQ fracIll ∧ IllTypedAt fracIll 0 (.fin 1) ∧
      fracIll.fill 0 (.fin 1) = (some .quantityType, fracIll) := by
  have hs : SharedQ fracIll := by
    refine ⟨?_, trivial, trivial⟩
    exact .deviate qAnon (.fin 1) (.fin 2) (.fin 0) (.fin 1) (.fin 2) (.fin 0)
  have hill : IllTypedAt fracIll 0 (.fin 1) := by
    refine ⟨fun _ => .str "oops", rfl, ?_⟩
    intro v hv
    cases hv
  exact ⟨hs, hill, (C7_quantity_type_rollback fracIll 0 (.fin 1) hs).2 hill⟩

/-- Exact-arithmetic comparison of two entries values: defined (and true)
only when both are finite. -/
def finLe : EVal → EVal → Prop
  | .fin a, .fin b => a ≤ b
  | _, _ => False

/-- Every entries field in the tree is a finite non-negative rational. -/
def AllFinNN {α : Type} : Prim α → Prop
  | .bag _ e _ => ∃ q, e = .fin q ∧ 0 ≤ q
  | .deviate _ e _ _ => ∃ q, e = .fin q ∧ 0 ≤ q
  | .fraction _ e n d => (∃ q, e = .fin q ∧ 0 ≤ q) ∧ AllFinNN n ∧ AllFinNN d
  | .select _ e c => (∃ q, e = .fin q ∧ 0 ≤ q) ∧ AllFinNN c

/-- The Select invariant of the claim, at every Select node of the tree:
cut.entries is at most entries, in exact arithmetic. -/
def SelOK {α : Type} : Prim α → Prop
  | .bag _ _ _ => True
  | .deviate _ _ _ _ => True
  | .fraction _ _ n d => SelOK n ∧ SelOK d
  | .select _ e c => finLe c.entriesOf e ∧ SelOK c

/-- The quantity (when callable) returns a finite number on every datum. -/
def QFin {α : Type} (qt : Quantity α) : Prop :=
  ∀ f, qt.fn = some f → ∀ x, ∃ c, f x = .num (.fin c)

/-- The quantity's results never exceed 1 (a proper cut, e.g. boolean). -/
def QLe1 {α : Type} (qt : Quantity α) : Prop :=
  ∀ f, qt.fn = some f → ∀ x c, f x = .num (.fin c) → c ≤ 1

/-- Selector discipline for the amended claim: Fraction and Select
selectors return finite numbers, and Select selectors are at most 1. -/
def QOK {α : Type} : Prim α → Prop
  | .bag _ _ _ => True
  | .deviate _ _ _ _ => True
  | .fraction qt _ n d => QFin qt ∧ QOK n ∧ QOK d
  | .select qt _ c => QFin qt ∧ QLe1 qt ∧ QOK c

/-- A zero (freshly created or `zero()`d) state: every entries is 0.0 and
all accumulators are cleared. -/
def ZeroState {α : Type} : Prim α → Prop
  | .bag _ e vals => e = .fin 0 ∧ vals = []
  | .deviate _ e m s => e = .fin 0 ∧ m = .fin 0 ∧ s = .fin 0
  | .fraction _ e n d => e = .fin 0 ∧ ZeroState n ∧ ZeroState d
  | .select _ e c => e = .fin 0 ∧ ZeroState c

/-- A zero state has zero entries. -/
theorem zeroState_entries {α : Type} (p : Prim α) (h : ZeroState p) :
    p.entriesOf = .fin 0 := by
  cases p <;> exact h.1

/-- Zero states are finite, non-negative and satisfy the Select invariant. -/
theorem zeroState_inv {α : Type} : ∀ (p : Prim α), ZeroState p → AllFinNN p ∧ SelOK p := by
  intro p
  induction p with
  | bag qt e vals => exact fun h => ⟨⟨0, h.1, le_refl 0⟩, trivial⟩
  | deviate qt e m s => exact fun h => ⟨⟨0, h.1, le_refl 0⟩, trivial⟩
  | fraction qt e n d ihn ihd =>
      intro h
      obtain ⟨he, hn, hd⟩ := h
      exact ⟨⟨⟨0, he, le_refl 0⟩, (ihn hn).1, (ihd hd).1⟩, (ihn hn).2, (ihd hd).2⟩
  | select qt e c ihc =>
      intro h
      obtain ⟨he, hc⟩ := h
      refine ⟨⟨⟨0, he, le_refl 0⟩, (ihc hc).1⟩, ?_, (ihc hc).2⟩
      rw [zeroState_entries c hc, he]
      exact le_refl 0

/-- The root entries of an `AllFinNN` tree is a finite non-negative rational. -/
theorem allFin_entries {α : Type} (p : Prim α) (h : AllFinNN p) :
    ∃ qe, p.entriesOf = .fin qe ∧ 0 ≤ qe := by
  cases p with
  | bag qt e vals => exact h
  | deviate qt e m s => exact h
  | fraction qt e n d => exact h.1
  | select qt e c => exact h.1

/-- A successful fill with a finite non-negative weight preserves
`AllFinNN`, the Select invariant and the selector discipline, and adds
exactly the weight to the root entries. -/
theorem fill_ok_inv {α : Type} : ∀ (p : Prim α) (x : α) (q : ℚ) (p2 : Prim α),
    0 ≤ q → AllFinNN p → SelOK p → QOK p → p.fill x (.fin q) = (none, p2) →
    AllFinNN p2 ∧ SelOK p2 ∧ QOK p2 ∧
      ∀ qe, p.entriesOf = .fin qe → p2.entriesOf = .fin (qe + q) := by
  intro p
  induction p with
  | bag qt e vals =>
      intro x q p2 hq hfin hsel hqok h
      obtain ⟨qe0, he, hnn⟩ := hfin
      by_cases hgt : (0 : ℚ) < q
      · have hw : (EVal.fin q).gtZero = true := by simp [EVal.gtZero, hgt]
        rcases hf : qt.fn with _ | f
        · simp [Prim.fill, hw, hf] at h
        · rcases hk : bagKeyOf (f x) with _ | k
          · simp [Prim.fill, hw, hf, hk] at h
          · simp only [Prim.fill, hw, hf, hk, if_true] at h
            obtain ⟨h1, h2⟩ := Prod.mk.injEq _ _ _ _ ▸ h
            subst he
            refine h2 ▸ ⟨⟨qe0 + q, by simp [EVal.add], by linarith⟩, trivial, trivial, ?_⟩
            intro qe hqe
            simp only [Prim.entriesOf, EVal.fin.injEq] at hqe
            simp [Prim.entriesOf, EVal.add, hqe]
      · have hw : (EVal.fin q).gtZero = false := by simp [EVal.gtZero, hgt]
        simp only [Prim.fill, hw, Bool.false_eq_true, if_false] at h
        obtain ⟨h1, h2⟩ := Prod.mk.injEq _ _ _ _ ▸ h
        have hq0 : q = 0 := le_antisymm (not_lt.mp hgt) hq
        subst hq0
        refine h2 ▸ ⟨⟨qe0, he, hnn⟩, trivial, trivial, ?_⟩
        intro qe hqe
        simpa using hqe
  | deviate qt e m v =>
      intro x q p2 hq hfin hsel hqok h
      obtain ⟨qe0, he, hnn⟩ := hfin
      by_cases hgt : (0 : ℚ) < q
      · have hw : (EVal.fin q).gtZero = true := by simp [EVal.gtZero, hgt]
        rcases hf : qt.fn with _ | f
        · simp [Prim.fill, hw, hf] at h
        · rcases hx : f x with qv | s | l | _
          · simp only [Prim.fill, hw, hf, hx, if_true] at h
            subst he
            have hent : ∀ (mm vv : EVal),
                (Prim.deviate qt ((EVal.fin qe0).add (.fin q)) mm vv : Prim α) = p2 →
                AllFinNN p2 ∧ SelOK p2 ∧ QOK p2 ∧
                  ∀ qe, (Prim.deviate qt (.fin qe0) m v : Prim α).entriesOf = .fin qe →
                    p2.entriesOf = .fin (qe + q) := by
              intro mm vv hh
              refine hh ▸ ⟨⟨qe0 + q, by simp [EVal.add], by linarith⟩, trivial, trivial, ?_⟩
              intro qe hqe
              simp only [Prim.entriesOf, EVal.fin.injEq] at hqe
              simp [Prim.entriesOf, EVal.add, hqe]
            split at h
            · exact hent _ _ (Prod.mk.injEq _ _ _ _ ▸ h).2
            · split at h
              · exact hent _ _ (Prod.mk.injEq _ _ _ _ ▸ h).2
              · exact hent _ _ (Prod.mk.injEq _ _ _ _ ▸ h).2
          · simp [Prim.fill, hw, hf, hx] at h
          · simp [Prim.fill, hw, hf, hx] at h
          · simp [Prim.fill, hw, hf, hx] at h
      · have hw : (EVal.fin q).gtZero = false := by simp [EVal.gtZero, hgt]
        simp only [Prim.fill, hw, Bool.false_eq_true, if_false] at h
        obtain ⟨h1, h2⟩ := Prod.mk.injEq _ _ _ _ ▸ h
        have hq0 : q = 0 := le_antisymm (not_lt.mp hgt) hq
        subst hq0
        refine h2 ▸ ⟨⟨qe0, he, hnn⟩, trivial, trivial, ?_⟩
        intro qe hqe
        simpa using hqe
  | fraction qt e num den ihn ihd =>
      intro x q p2 hq hfin hsel hqok h
      obtain ⟨⟨qe0, he, hnn⟩, hfn, hfd⟩ := hfin
      obtain ⟨hsn, hsd⟩ := hsel
      obtain ⟨hqf, hqn, hqd⟩ := hqok
      rcases hf : qt.fn with _ | f
      · simp [Prim.fill, hf] at h
      · obtain ⟨c, hx⟩ := hqf f hf x
        have hmul : (EVal.fin c).mul (.fin q) = .fin (c * q) := rfl
        rcases hden : den.fill x (.fin q) with ⟨od, den2⟩
        rcases hnum : num.fill x (.fin (c * q)) with ⟨onum, num2⟩
        by_cases hgt : (0 : ℚ) < q
        · have hw : (EVal.fin q).gtZero = true := by simp [EVal.gtZero, hgt]
          by_cases hgq : (0 : ℚ) < c * q
          · have hwq : (EVal.fin (c * q)).gtZero = true := by simp [EVal.gtZero, hgq]
            simp only [Prim.fill, hf, hx, hmul, hw, hwq, hden, hnum, if_true] at h
            rcases od with _ | erd
            · rcases onum with _ | ern
              · obtain ⟨h1, h2⟩ := Prod.mk.injEq _ _ _ _ ▸ h
                obtain ⟨hfd2, hsd2, hqd2, hed2⟩ := ihd x q den2 hq hfd hsd hqd hden
                obtain ⟨hfn2, hsn2, hqn2, hen2⟩ :=
                  ihn x (c * q) num2 (le_of_lt hgq) hfn hsn hqn hnum
                subst he
                refine h2 ▸ ⟨⟨⟨qe0 + q, by simp [EVal.add], by linarith⟩, hfn2, hfd2⟩,
                  ⟨hsn2, hsd2⟩, ⟨hqf, hqn2, hqd2⟩, ?_⟩
                intro qe hqe
                simp only [Prim.entriesOf, EVal.fin.injEq] at hqe
                simp [Prim.entriesOf, EVal.add, hqe]
              · simp at h
            · simp at h
          · have hwq : (EVal.fin (c * q)).gtZero = false := by simp [EVal.gtZero, hgq]
            simp only [Prim.fill, hf, hx, hmul, hw, hwq, hden, Bool.false_eq_true,
              if_false, if_true] at h
            rcases od with _ | erd
            · obtain ⟨h1, h2⟩ := Prod.mk.injEq _ _ _ _ ▸ h
              obtain ⟨hfd2, hsd2, hqd2, hed2⟩ := ihd x q den2 hq hfd hsd hqd hden
              subst he
              refine h2 ▸ ⟨⟨⟨qe0 + q, by simp [EVal.add], by linarith⟩, hfn, hfd2⟩,
                ⟨hsn, hsd2⟩, ⟨hqf, hqn, hqd2⟩, ?_⟩
              intro qe hqe
              simp only [Prim.entriesOf, EVal.fin.injEq] at hqe
              simp [Prim.entriesOf, EVal.add, hqe]
            · simp at h
        · have hw : (EVal.fin q).gtZero = false := by simp [EVal.gtZero, hgt]
          have hq0 : q = 0 := le_antisymm (not_lt.mp hgt) hq
          subst hq0
          have hwq : (EVal.fin (c * 0)).gtZero = false := by
            simp [EVal.gtZero]
          simp only [Prim.fill, hf, hx, hmul, hw, hwq, Bool.false_eq_true, if_false] at h
          obtain ⟨h1, h2⟩ := Prod.mk.injEq _ _ _ _ ▸ h
          subst he
          refine h2 ▸ ⟨⟨⟨qe0 + 0, by simp [EVal.add], by linarith⟩, hfn, hfd⟩,
            ⟨hsn, hsd⟩, ⟨hqf, hqn, hqd⟩, ?_⟩
          intro qe hqe
          simp only [Prim.entriesOf, EVal.fin.injEq] at hqe
          simp [Prim.entriesOf, EVal.add, hqe]
  | select qt e cut ihc =>
      intro x q p2 hq hfin hsel hqok h
      obtain ⟨⟨qe0, he, hnn⟩, hfc⟩ := hfin
      obtain ⟨hsLe, hsc⟩ := hsel
      obtain ⟨hqf, hqle, hqc⟩ := hqok
      rcases hf : qt.fn with _ | f
      · simp [Prim.fill, hf] at h
      · obtain ⟨c, hx⟩ := hqf f hf x
        have hc1 : c ≤ 1 := hqle f hf x c hx
        have hmul : (EVal.fin c).mul (.fin q) = .fin (c * q) := rfl
        rcases hcut : cut.fill x (.fin (c * q)) with ⟨oc, cut2⟩
        obtain ⟨qce, hqce, hqcenn⟩ := allFin_entries cut hfc
        have hloc : (qce : ℚ) ≤ qe0 := by
          have := hsLe
          rw [he, hqce] at this
          exact this
        by_cases hgq : (0 : ℚ) < c * q
        · have hwq : (EVal.fin (c * q)).gtZero = true := by simp [EVal.gtZero, hgq]
          simp only [Prim.fill, hf, hx, hmul, hwq, hcut, if_true] at h
          rcases oc with _ | erc
          · obtain ⟨h1, h2⟩ := Prod.mk.injEq _ _ _ _ ▸ h
            obtain ⟨hfc2, hsc2, hqc2, hec2⟩ :=
              ihc x (c * q) cut2 (le_of_lt hgq) hfc hsc hqc hcut
            have hcut2e := hec2 qce hqce
            subst he
            refine h2 ▸ ⟨⟨⟨qe0 + q, by simp [EVal.add], by linarith⟩, hfc2⟩,
              ⟨?_, hsc2⟩, ⟨hqf, hqle, hqc2⟩, ?_⟩
            · rw [hcut2e, show (EVal.fin qe0).add (.fin q) = .fin (qe0 + q) from rfl]
              show qce + c * q ≤ qe0 + q
              nlinarith
            · intro qe hqe
              simp only [Prim.entriesOf, EVal.fin.injEq] at hqe
              simp [Prim.entriesOf, EVal.add, hqe]
          · simp at h
        · have hwq : (EVal.fin (c * q)).gtZero = false := by simp [EVal.gtZero, hgq]
          simp only [Prim.fill, hf, hx, hmul, hwq, Bool.false_eq_true, if_false] at h
          obtain ⟨h1, h2⟩ := Prod.mk.injEq _ _ _ _ ▸ h
          subst he
          refine h2 ▸ ⟨⟨⟨qe0 + q, by simp [EVal.add], by linarith⟩, hfc⟩,
            ⟨?_, hsc⟩, ⟨hqf, hqle, hqc⟩, ?_⟩
          · rw [hqce, show (EVal.fin qe0).add (.fin q) = .fin (qe0 + q) from rfl]
            show qce ≤ qe0 + q
            linarith
          · intro qe hqe
            simp only [Prim.entriesOf, EVal.fin.injEq] at hqe
            simp [Prim.entriesOf, EVal.add, hqe]

/-- A successful combine preserves `AllFinNN`, the Select invariant and
the selector discipline; the combined entries is non-negative and at most
the sum of the summands' entries (Fraction drops its entries to 0.0, see
C1, so equality cannot be claimed). -/
theorem padd_ok_inv {α : Type} : ∀ (a b c : Prim α),
    AllFinNN a → SelOK a → QOK a → AllFinNN b → SelOK b → QOK b →
    a.padd b = .ok c →
    AllFinNN c ∧ SelOK c ∧ QOK c ∧
      ∀ qa qb, a.entriesOf = .fin qa → b.entriesOf = .fin qb →
        ∃ qc, c.entriesOf = .fin qc ∧ 0 ≤ qc ∧ qc ≤ qa + qb := by
  intro a
  induction a with
  | bag qt e vals =>
      intro b c hfa hsa hqa hfb hsb hqb h
      cases b with
      | bag qt2 e2 v2 =>
          simp only [Prim.padd, Except.ok.injEq] at h
          obtain ⟨qa0, hea, hna⟩ := hfa
          obtain ⟨qb0, heb, hnb⟩ := hfb
          subst hea
          subst heb
          refine h ▸ ⟨⟨qa0 + qb0, by simp [EVal.add], by linarith⟩, trivial, trivial, ?_⟩
          intro qa qb hqa2 hqb2
          simp only [Prim.entriesOf, EVal.fin.injEq] at hqa2 hqb2
          exact ⟨qa0 + qb0, by simp [Prim.entriesOf, EVal.add], by linarith,
            le_of_eq (by rw [hqa2, hqb2])⟩
      | deviate qt2 e2 m2 s2 => simp [Prim.padd] at h
      | fraction qt2 e2 n2 d2 => simp [Prim.padd] at h
      | select qt2 e2 c2 => simp [Prim.padd] at h
  | deviate qt e m s =>
      intro b c hfa hsa hqa hfb hsb hqb h
      cases b with
      | bag qt2 e2 v2 => simp [Prim.padd] at h
      | deviate qt2 e2 m2 s2 =>
          simp only [Prim.padd, Except.ok.injEq] at h
          obtain ⟨qa0, hea, hna⟩ := hfa
          obtain ⟨qb0, heb, hnb⟩ := hfb
          subst hea
          subst heb
          refine h ▸ ⟨⟨qa0 + qb0, by simp [EVal.add], by linarith⟩, trivial, trivial, ?_⟩
          intro qa qb hqa2 hqb2
          simp only [Prim.entriesOf, EVal.fin.injEq] at hqa2 hqb2
          exact ⟨qa0 + qb0, by simp [Prim.entriesOf, EVal.add], by linarith,
            le_of_eq (by rw [hqa2, hqb2])⟩
      | fraction qt2 e2 n2 d2 => simp [Prim.padd] at h
      | select qt2 e2 c2 => simp [Prim.padd] at h
  | fraction qt e num den ihn ihd =>
      intro b c hfa hsa hqa hfb hsb hqb h
      cases b with
      | bag qt2 e2 v2 => simp [Prim.padd] at h
      | deviate qt2 e2 m2 s2 => simp [Prim.padd] at h
      | fraction qt2 e2 n2 d2 =>
          obtain ⟨⟨qa0, hea, hna⟩, hfn1, hfd1⟩ := hfa
          obtain ⟨hsn1, hsd1⟩ := hsa
          obtain ⟨hqf1, hqn1, hqd1⟩ := hqa
          obtain ⟨⟨qb0, heb, hnb⟩, hfn2, hfd2⟩ := hfb
          obtain ⟨hsn2, hsd2⟩ := hsb
          obtain ⟨hqf2, hqn2, hqd2⟩ := hqb
          rcases hpn : num.padd n2 with u | n3
          · simp [Prim.padd, hpn] at h
          · rcases hpd : den.padd d2 with u | d3
            · simp [Prim.padd, hpn, hpd] at h
            · simp only [Prim.padd, hpn, hpd, Except.ok.injEq] at h
              obtain ⟨hf3, hs3, hq3, he3⟩ :=
                ihn n2 n3 hfn1 hsn1 hqn1 hfn2 hsn2 hqn2 hpn
              obtain ⟨hf4, hs4, hq4, he4⟩ :=
                ihd d2 d3 hfd1 hsd1 hqd1 hfd2 hsd2 hqd2 hpd
              subst hea
              subst heb
              refine h ▸ ⟨⟨⟨0, rfl, le_refl 0⟩, hf3, hf4⟩, ⟨hs3, hs4⟩,
                ⟨hqf1, hq3, hq4⟩, ?_⟩
              intro qa qb hqa2 hqb2
              simp only [Prim.entriesOf, EVal.fin.injEq] at hqa2 hqb2
              exact ⟨0, by simp [Prim.entriesOf], le_refl 0,
                by rw [← hqa2, ← hqb2]; linarith⟩
      | select qt2 e2 c2 => simp [Prim.padd] at h
  | select qt e cut ihc =>
      intro b c hfa hsa hqa hfb hsb hqb h
      cases b with
      | bag qt2 e2 v2 => simp [Prim.padd] at h
      | deviate qt2 e2 m2 s2 => simp [Prim.padd] at h
      | fraction qt2 e2 n2 d2 => simp [Prim.padd] at h
      | select qt2 e2 c2 =>
          obtain ⟨⟨qa0, hea, hna⟩, hfc1⟩ := hfa
          obtain ⟨hsle1, hsc1⟩ := hsa
          obtain ⟨hqf1, hqle1, hqc1⟩ := hqa
          obtain ⟨⟨qb0, heb, hnb⟩, hfc2⟩ := hfb
          obtain ⟨hsle2, hsc2⟩ := hsb
          obtain ⟨hqf2, hqle2, hqc2⟩ := hqb
          rcases hpc : cut.padd c2 with u | c3
          · simp [Prim.padd, hpc] at h
          · simp only [Prim.padd, hpc, Except.ok.injEq] at h
            obtain ⟨hf3, hs3, hq3, he3⟩ :=
              ihc c2 c3 hfc1 hsc1 hqc1 hfc2 hsc2 hqc2 hpc
            obtain ⟨qcc1, hqcc1, hncc1⟩ := allFin_entries cut hfc1
            obtain ⟨qcc2, hqcc2, hncc2⟩ := allFin_entries c2 hfc2
            obtain ⟨qc3, hqc3, hnc3, hlec3⟩ := he3 qcc1 qcc2 hqcc1 hqcc2
            have hb1 : qcc1 ≤ qa0 := by
              have := hsle1
              rw [hea, hqcc1] at this
              exact this
            have hb2 : qcc2 ≤ qb0 := by
              have := hsle2
              rw [heb, hqcc2] at this
              exact this
            subst hea
            subst heb
            refine h ▸ ⟨⟨⟨qa0 + qb0, by simp [EVal.add], by linarith⟩, hf3⟩,
              ⟨?_, hs3⟩, ⟨hqf1, hqle1, hq3⟩, ?_⟩
            · rw [hqc3, show (EVal.fin qa0).add (.fin qb0) = .fin (qa0 + qb0) from rfl]
              show qc3 ≤ qa0 + qb0
              linarith
            · intro qa qb hqa2 hqb2
              simp only [Prim.entriesOf, EVal.fin.injEq] at hqa2 hqb2
              exact ⟨qa0 + qb0, by simp [Prim.entriesOf, EVal.add], by linarith,
                le_of_eq (by rw [hqa2, hqb2])⟩

/-- The states reachable from a zero state by fills with finite
non-negative weights (any selector results, as the claim says) and
successful combines. -/
inductive ReachedW : Prim ℚ → Prop where
  | base (p : Prim ℚ) : ZeroState p → ReachedW p
  | fil (p p2 : Prim ℚ) (x q : ℚ) : ReachedW p → 0 ≤ q →
      p.fill x (.fin q) = (none, p2) → ReachedW p2
  | comb (a b c : Prim ℚ) : ReachedW a → ReachedW b → a.padd b = .ok c → ReachedW c

/-- The states of the amended claim: reachable from a zero state whose
selectors obey `QOK` (finite results, Select selectors at most 1), by
fills with finite non-negative weights and successful combines. -/
inductive ReachedQ : Prim ℚ → Prop where
  | base (p : Prim ℚ) : ZeroState p → QOK p → ReachedQ p
  | fil (p p2 : Prim ℚ) (x q : ℚ) : ReachedQ p → 0 ≤ q →
      p.fill x (.fin q) = (none, p2) → ReachedQ p2
  | comb (a b c : Prim ℚ) : ReachedQ a → ReachedQ b → a.padd b = .ok c → ReachedQ c

/-- The invariant bundle holds at every `ReachedQ` state. -/
theorem reachedQ_inv {p : Prim ℚ} (h : ReachedQ p) : AllFinNN p ∧ SelOK p ∧ QOK p := by
  induction h with
  | base p hz hq => exact ⟨(zeroState_inv p hz).1, (zeroState_inv p hz).2, hq⟩
  | fil p p2 x q hr hq hfill ih =>
      obtain ⟨hf, hs, hqok⟩ := ih
      obtain ⟨hf2, hs2, hq2, _⟩ := fill_ok_inv p x q p2 hq hf hs hqok hfill
      exact ⟨hf2, hs2, hq2⟩
  | comb a b c hra hrb hadd iha ihb =>
      obtain ⟨hfa, hsa, hqa⟩ := iha
      obtain ⟨hfb, hsb, hqb⟩ := ihb
      obtain ⟨hfc, hsc, hqc, _⟩ := padd_ok_inv a b c hfa hsa hqa hfb hsb hqb hadd
      exact ⟨hfc, hsc, hqc⟩

/-- C4 amended.  On every state reached from zero by fills (weights at
least 0) and combines, with selectors that return finite values and —
at Select nodes — values at most 1, every Select node satisfies
cut.entries at most entries in exact arithmetic.  The claim's
"any selector results" fails: a selector above 1 overfills the cut (see
the counterexample). -/
theorem C4_select_invariant_amended (p : Prim ℚ) (h : ReachedQ p) : SelOK p :=
  (reachedQ_inv h).2.1

/-- A selector returning the constant 2. -/
def qSel2 : Quantity ℚ := ⟨some (fun _ => .num (.fin 2)), none⟩

/-- A quantity returning the constant 0. -/
def qDev0 : Quantity ℚ := ⟨some (fun _ => .num (.fin 0)), none⟩

/-- A zero-state Select whose selector returns 2. -/
def selTwo : Prim ℚ := .select qSel2 (.fin 0) (.deviate qDev0 (.fin 0) (.fin 0) (.fin 0))

/-- `selTwo` after one fill with weight 1: the cut was filled with
selector * weight = 2 while entries advanced by 1. -/
def selTwoFilled : Prim ℚ :=
  .select qSel2 (.fin 1) (.deviate qDev0 (.fin 2) (.fin 0) (.fin 0))

/-- C4 counterexample.  A Select with selector 2, reached from a zero
state by a single fill with weight 1 (weights are non-negative, as the
claim allows), has cut.entries = 2 above entries = 1: `Select.fill`
(select.py lines 93-103) fills the cut with selector * weight, which
exceeds the weight added to entries whenever the selector exceeds 1 —
exactly the spec's own Select seed scenario (cut.entries 5 of entries 3). -/
theorem C4_select_cut_exceeds_entries_cex :
    ReachedW selTwoFilled ∧ ¬ SelOK selTwoFilled := by
  constructor
  · refine ReachedW.fil selTwo selTwoFilled 0 1 (ReachedW.base selTwo ?_) (by norm_num) ?_
    · exact ⟨rfl, rfl, rfl, rfl⟩
    · norm_num [selTwo, selTwoFilled, qSel2, qDev0, Prim.fill, EVal.mul, EVal.gtZero,
        EVal.add, EVal.sub, EVal.neg, EVal.div, EVal.isNan, EVal.isInf]
  · intro hs
    obtain ⟨hle, _⟩ := hs
    simp only [selTwoFilled, Prim.entriesOf, finLe] at hle
    linarith

/-- A selector returning the constant 1. -/
def qSel1 : Quantity ℚ := ⟨some (fun _ => .num (.fin 1)), none⟩

/-- A zero-state Select whose selector returns 1. -/
def selOne0 : Prim ℚ := .select qSel1 (.fin 0) (.deviate qDev0 (.fin 0) (.fin 0) (.fin 0))

/-- `selOne0` after one fill with weight 1. -/
def selOne1 : Prim ℚ := .select qSel1 (.fin 1) (.deviate qDev0 (.fin 1) (.fin 0) (.fin 0))

/-- C4 amended, witness: a Select with the constant-1 selector reached by
one fill of weight 1 satisfies the invariant. -/
theorem C4_select_invariant_amended_witness : ReachedQ selOne1 ∧ SelOK selOne1 := by
  have hz : ZeroState selOne0 := ⟨rfl, rfl, rfl, rfl⟩
  have hqok : QOK selOne0 := by
    refine ⟨?_, ?_, trivial⟩
    · intro f hf x
      simp only [selOne0, qSel1] at hf
      injection hf with hf
      subst hf
      exact ⟨1, rfl⟩
    · intro f hf x c hc
      simp only [selOne0, qSel1] at hf
      injection hf with hf
      subst hf
      simp only [QVal.num.injEq, EVal.fin.injEq] at hc
      rw [← hc]
  have hfill : selOne0.fill 0 (.fin 1) = (none, selOne1) := by
    norm_num [selOne0, selOne1, qSel1, qDev0, Prim.fill, EVal.mul, EVal.gtZero,
      EVal.add, EVal.sub, EVal.neg, EVal.div, EVal.isNan, EVal.isInf]
  have hr : ReachedQ selOne1 :=
    ReachedQ.fil selOne0 selOne1 0 1 (ReachedQ.base selOne0 hz hqok) (by norm_num) hfill
  exact ⟨hr, C4_select_invariant_amended selOne1 hr⟩

/-- Bag keys whose wire form reads back as the same key.  A literal string
key "inf" or "-inf" serializes like the float sentinel and reloads as the
infinity float key; a tuple containing NaN never compares equal to itself
(Python's isinstance check fails on the "nan" string element). -/
def BagKeyGood : BKey → Prop
  | .kstr s => s ≠ "inf" ∧ s ≠ "-inf"
  | .ktup xs => TElem.tnan ∉ xs
  | _ => True

/-- Well-formed aggregator states: entries is a finite non-negative float
(as every fill/combine-reachable state has), a zero-entries Deviate has
varianceTimesEntries 0 or NaN (so variance round-trips through
variance * entries), a Fraction's children are of one kind and share the
quantity name (as `__init__` via value.zero() clones guarantees), and a
Bag's value dictionary iterates in sorted order with distinct keys that
survive the wire. -/
def WF {α : Type} : Prim α → Prop
  | .bag _ e vals => (∃ q, e = .fin q ∧ 0 ≤ q) ∧
      (vals.map Prod.fst).Nodup ∧ (∀ kv ∈ vals, BagKeyGood kv.1) ∧
      vals = canonicalBag vals
  | .deviate _ e _ s => (∃ q, e = .fin q ∧ 0 ≤ q) ∧ (e = .fin 0 → s = .fin 0 ∨ s = .nan)
  | .fraction _ e n d => (∃ q, e = .fin q ∧ 0 ≤ q) ∧ n.primName = d.primName ∧
      n.qnameOf = d.qnameOf ∧ WF n ∧ WF d
  | .select _ e c => (∃ q, e = .fin q ∧ 0 ≤ q) ∧ WF c

/-- What deserialization reconstructs from a state's own document: an `.ed`
instance with no callable quantity, the given name, and (for Deviate) the
variance recomputed as variance * entries; Fraction passes the numerator's
name down to both children, Select the cut's own name. -/
def reload {α : Type} : Prim α → Option String → Prim α
  | .bag _ e vals, nm => .bag ⟨none, nm⟩ e vals
  | .deviate _ e m s, nm => .deviate ⟨none, nm⟩ e m ((devVarianceOf e s).mul e)
  | .fraction _ e n d, nm => .fraction ⟨none, nm⟩ e (reload n n.qnameOf) (reload d n.qnameOf)
  | .select _ e c, nm => .select ⟨none, nm⟩ e (reload c c.qnameOf)

/-- floatToJson and jsonToEVal are inverse. -/
theorem jsonToEVal_floatToJson (x : EVal) : jsonToEVal (floatToJson x) = some x := by
  cases x <;> rfl

/-- A non-negative finite float is not `< 0`. -/
theorem ltZero_of_nonneg (q : ℚ) (h : 0 ≤ q) : (EVal.fin q).ltZero = false := by
  simp [EVal.ltZero, not_lt.mpr h]

/-- With no nameFromParent, resolveName is the identity. -/
theorem resolveName_none (nm : Option String) : resolveName nm none = nm := by
  cases nm <;> rfl

/-- Every primitive's factory name is registered. -/
theorem knownType_primName {α : Type} (p : Prim α) : knownType p.primName = true := by
  cases p <;> rfl

/-- Tolerance comparison of a float with itself succeeds, including NaN,
which the library compares with `x != x and y != y`. -/
theorem numeq_refl (rtol atol : ℚ) (x : EVal) : numeq rtol atol x x = true := by
  cases x <;> simp [numeq]

/-- A non-NaN tuple element equals itself. -/
theorem telemEq_refl (rtol atol : ℚ) (t : TElem) (h : t ≠ .tnan) :
    telemEq rtol atol t t = true := by
  cases t with
  | tnum q => simp [telemEq, numeq_refl]
  | tpinf => rfl
  | tninf => rfl
  | tnan => exact absurd rfl h

/-- Pairwise comparison of a list with itself from elementwise reflexivity. -/
theorem listAll2_refl {β : Type} (f : β → β → Bool) :
    ∀ (l : List β), (∀ r ∈ l, f r r = true) → listAll2 f l l = true := by
  intro l
  induction l with
  | nil => intro _; rfl
  | cons a as ih =>
      intro h
      simp only [listAll2, Bool.and_eq_true]
      exact ⟨h a (List.mem_cons_self a as), ih (fun r hr => h r (List.mem_cons_of_mem a hr))⟩

/-- A wire-surviving Bag key equals itself under the library comparison. -/
theorem bagKeyEq_refl (rtol atol : ℚ) (k : BKey) (h : BagKeyGood k) :
    bagKeyEq rtol atol k k = true := by
  cases k with
  | knum q => simp [bagKeyEq, BKey.toEVal, numeq_refl]
  | kpinf => rfl
  | kninf => rfl
  | kstr s => simp [bagKeyEq]
  | ktup xs =>
      simp only [bagKeyEq, Bool.and_eq_true, decide_eq_true_eq, eq_self_iff_true, true_and]
      refine listAll2_refl _ xs ?_
      intro t ht
      exact telemEq_refl rtol atol t (fun he => h (he ▸ ht))

/-- Membership in an insertion-sort insert. -/
theorem mem_insertB {β : Type} (le : β → β → Bool) (x a : β) :
    ∀ (l : List β), a ∈ insertB le x l ↔ a = x ∨ a ∈ l := by
  intro l
  induction l with
  | nil => simp [insertB]
  | cons y ys ih =>
      simp only [insertB]
      split
      · simp [List.mem_cons]
      · simp only [List.mem_cons, ih]
        tauto

/-- Sorting preserves membership. -/
theorem mem_sortB {β : Type} (le : β → β → Bool) (a : β) :
    ∀ (l : List β), a ∈ sortB le l ↔ a ∈ l := by
  intro l
  induction l with
  | nil => simp [sortB]
  | cons y ys ih =>
      simp only [sortB, mem_insertB, List.mem_cons, ih]

/-- `Deviate.ed` recomputes varianceTimesEntries as variance * entries;
on well-formed states this round-trips the variance exactly: for positive
entries (v*e)/e = v, and at zero entries the 0-or-NaN side condition makes
0 * 0 = 0 and NaN * 0 = NaN reproduce the stored value. -/
theorem devVariance_roundTrip (q : ℚ) (s : EVal) (hq : 0 ≤ q)
    (h0 : (EVal.fin q) = .fin 0 → s = .fin 0 ∨ s = .nan) :
    devVarianceOf (.fin q) ((devVarianceOf (.fin q) s).mul (.fin q)) =
      devVarianceOf (.fin q) s := by
  by_cases hz : q = 0
  · subst hz
    rcases h0 rfl with h | h
    · subst h
      simp [devVarianceOf, EVal.mul]
    · subst h
      simp [devVarianceOf, EVal.mul]
  · have hpos : 0 < q := lt_of_le_of_ne hq (Ne.symm hz)
    have hne : ¬(EVal.fin q = .fin 0) := by simp [hz]
    cases s with
    | fin a =>
        simp only [devVarianceOf, hne, if_neg, if_false, EVal.div, EVal.mul, hz, ite_false]
        congr 1
        field_simp
    | pinf =>
        simp only [devVarianceOf, hne, if_neg, if_false, EVal.div, EVal.mul, hz, hpos,
          ite_false, ite_true, if_pos]
    | ninf =>
        simp only [devVarianceOf, hne, if_neg, if_false, EVal.div, EVal.mul, hz, hpos,
          ite_false, ite_true, if_pos]
    | nan =>
        simp [devVarianceOf, hne, EVal.div, EVal.mul]

/-- Each sorted comparison row of a Bag (including the appended "nan"
lookup row) equals itself when all stored keys survive the wire. -/
theorem bagRowEq_refl (rtol atol : ℚ) (vals : List (BKey × EVal))
    (hgood : ∀ kv ∈ vals, BagKeyGood kv.1) :
    listAll2 (bagRowEq rtol atol) (bagRows vals) (bagRows vals) = true := by
  refine listAll2_refl _ _ ?_
  intro r hr
  simp only [bagRows, List.mem_append, List.mem_map, List.mem_singleton] at hr
  rcases hr with ⟨kv, hkv, hmap⟩ | hnan
  · have hmem : kv ∈ vals := by
      have := (mem_sortB (fun a b => BKey.le a.1 b.1) kv (bagNonNan vals)).mp
      simp only [bagSorted] at hkv
      have h2 := this hkv
      simp only [bagNonNan, List.mem_filter] at h2
      exact h2.1
    subst hmap
    simp only [bagRowEq, Bool.and_eq_true]
    exact ⟨bagKeyEq_refl rtol atol kv.1 (hgood kv hmem), by simp [numeq_refl]⟩
  · subst hnan
    simp only [bagRowEq, Bool.and_eq_true]
    refine ⟨bagKeyEq_refl rtol atol _ (by simp [BagKeyGood]), ?_⟩
    cases lookupKey vals (.kstr "nan") with
    | none => simp
    | some w => simp [numeq_refl]

/-- A reloaded well-formed state compares equal (`__eq__` with float
tolerance) to the original when handed the original's quantity name. -/
theorem peq_reload {α : Type} (rtol atol : ℚ) :
    ∀ (p : Prim α) (nm : Option String), WF p → nm = p.qnameOf →
      (reload p nm).peq rtol atol p = true := by
  intro p
  induction p with
  | bag qt e vals =>
      intro nm hwf hnm
      obtain ⟨⟨q, he, hq⟩, hnodup, hgood, hcanon⟩ := hwf
      simp only [reload, Prim.peq, Bool.and_eq_true]
      refine ⟨⟨?_, ?_⟩, numeq_refl rtol atol e⟩
      · simp only [bagValuesEq, Bool.and_eq_true, decide_eq_true_eq, eq_self_iff_true,
          true_and]
        exact bagRowEq_refl rtol atol vals hgood
      · simp [qeq, hnm, Prim.qnameOf]
  | deviate qt e m s =>
      intro nm hwf hnm
      obtain ⟨⟨q, he, hq⟩, h0⟩ := hwf
      subst he
      simp only [reload, Prim.peq, Bool.and_eq_true]
      refine ⟨⟨⟨?_, numeq_refl rtol atol _⟩, numeq_refl rtol atol m⟩, ?_⟩
      · simp [qeq, hnm, Prim.qnameOf]
      · rw [devVariance_roundTrip q s hq h0]
        exact numeq_refl rtol atol _
  | fraction qt e n d ihn ihd =>
      intro nm hwf hnm
      obtain ⟨⟨q, he, hq⟩, hpn, hqn, hwn, hwd⟩ := hwf
      simp only [reload, Prim.peq, Bool.and_eq_true]
      refine ⟨⟨⟨numeq_refl rtol atol e, ?_⟩, ihn n.qnameOf hwn rfl⟩, ihd n.qnameOf hwd hqn⟩
      simp [qeq, hnm, Prim.qnameOf]
  | select qt e c ihc =>
      intro nm hwf hnm
      obtain ⟨⟨q, he, hq⟩, hwc⟩ := hwf
      simp only [reload, Prim.peq, Bool.and_eq_true]
      exact ⟨numeq_refl rtol atol e, ihc c.qnameOf hwc rfl⟩

/-- Serialized tuple elements parse back to themselves. -/
theorem parseTElems_toJson : ∀ (xs : List TElem),
    parseTElems (xs.map TElem.toJson) = some xs := by
  intro xs
  induction xs with
  | nil => rfl
  | cons t ts ih =>
      cases t <;> simp [TElem.toJson, parseTElems, ih]

/-- A wire-surviving Bag key parses back from its own wire form. -/
theorem parseBagKey_toJson (k : BKey) (h : BagKeyGood k) :
    parseBagKey k.toJson = .ok k := by
  cases k with
  | knum q => rfl
  | kpinf => rfl
  | kninf => rfl
  | kstr s =>
      obtain ⟨h1, h2⟩ := h
      by_cases h3 : s = "nan"
      · subst h3; rfl
      · simp only [BKey.toJson]
        simp [parseBagKey, h1, h2, h3]
  | ktup xs =>
      simp [BKey.toJson, parseBagKey, parseTElems_toJson]

/-- Setting a fresh key in the value dictionary appends it. -/
theorem assocSet_notMem : ∀ (acc : List (BKey × EVal)) (k : BKey) (w : EVal),
    (∀ kv ∈ acc, kv.1 ≠ k) → assocSet acc k w = acc ++ [(k, w)]
  | [], k, w, _ => rfl
  | (k0, w0) :: rest, k, w, h => by
      have hne : k0 ≠ k := h (k0, w0) (List.mem_cons_self _ _)
      simp only [assocSet, hne, if_false, List.cons_append, List.cons.injEq, true_and]
      exact assocSet_notMem rest k w (fun kv hkv => h kv (List.mem_cons_of_mem _ hkv))

/-- Serialized Bag rows with distinct wire-surviving keys parse back to the
accumulator followed by the rows themselves. -/
theorem parseBagRows_roundTrip :
    ∀ (rows acc : List (BKey × EVal)),
      (∀ kv ∈ rows, BagKeyGood kv.1) →
      (∀ kv ∈ rows, ∀ kv2 ∈ acc, kv2.1 ≠ kv.1) →
      (rows.map Prod.fst).Nodup →
      parseBagRows (rows.map (fun kv =>
        JVal.jobj [("w", floatToJson kv.2), ("v", BKey.toJson kv.1)])) acc =
        .ok (acc ++ rows) := by
  intro rows
  induction rows with
  | nil => intro acc _ _ _; simp [parseBagRows]
  | cons kv rest ih =>
      intro acc hgood hfresh hnodup
      obtain ⟨k, w⟩ := kv
      have hw2 : getField [("w", floatToJson w), ("v", BKey.toJson k)] "w" =
          some (floatToJson w) := by simp [getField]
      have hv2 : getField [("w", floatToJson w), ("v", BKey.toJson k)] "v" =
          some (BKey.toJson k) := by simp [getField]
      simp only [List.map_cons, parseBagRows]
      rw [if_pos (by simp [hasKeys])]
      rw [hw2, hv2]
      simp only [Option.some_bind, jsonToEVal_floatToJson]
      simp only [parseBagKey_toJson k (hgood (k, w) (List.mem_cons_self _ _))]
      rw [assocSet_notMem acc k w (fun kv2 hkv2 => hfresh (k, w) (List.mem_cons_self _ _) kv2 hkv2)]
      rw [ih (acc ++ [(k, w)]) (fun kv2 h2 => hgood kv2 (List.mem_cons_of_mem _ h2)) ?_ ?_]
      · rw [List.append_assoc]
        rfl
      · intro kv2 h2 kv3 h3
        rcases List.mem_append.mp h3 with h4 | h4
        · exact hfresh kv2 (List.mem_cons_of_mem _ h2) kv3 h4
        · simp only [List.mem_singleton] at h4
          subst h4
          simp only [List.map_cons, List.nodup_cons] at hnodup
          intro heq
          refine hnodup.1 ?_
          rw [show k = kv2.1 from heq]
          exact List.mem_map_of_mem Prod.fst h2
      · simp only [List.map_cons, List.nodup_cons] at hnodup
        exact hnodup.2

/-- A serialized float is one JSON node. -/
theorem jsize_floatToJson (x : EVal) : jsize (floatToJson x) = 1 := by
  cases x <;> rfl

/-- A finite float serializes to a plain number, so jsonToFinite accepts it. -/
theorem jsonToFinite_fin (q : ℚ) : jsonToFinite (floatToJson (.fin q)) = some (.fin q) := rfl

/-- Central round-trip induction: every primitive's fromJsonFragment, run on
its own toJsonFragment output (with enough fuel) under either naming mode,
reconstructs exactly the `reload` of the state. -/
theorem parse_toJsonFragment {α : Type} :
    ∀ (p : Prim α) (sup : Bool) (nfp : Option String) (fuel : ℕ),
      WF p → jsize (p.toJsonFragment sup) ≤ fuel →
      parseFragF fuel p.primName (p.toJsonFragment sup) nfp =
        .ok (reload p (resolveName (if sup then none else p.qnameOf) nfp)) := by
  intro p
  induction p with
  | bag qt e vals =>
      intro sup nfp fuel hwf _
      obtain ⟨⟨q, he, hq⟩, hnodup, hgood, hcanon⟩ := hwf
      subst he
      rcases hnm : (if sup then none else qt.name) with _ | s
      all_goals
        simp only [Prim.toJsonFragment, Prim.primName, Prim.qnameOf, hnm, maybeField,
          List.append_nil, parseFragF, parseBag]
      · rw [if_pos (by simp [hasKeys])]
        rw [show getField [("entries", floatToJson (.fin q)),
              ("values", JVal.jarr ((canonicalBag vals).map (fun kv =>
                JVal.jobj [("w", floatToJson kv.2), ("v", kv.1.toJson)])))] "entries" =
            some (floatToJson (.fin q)) from by simp [getField]]
        rw [show getField [("entries", floatToJson (.fin q)),
              ("values", JVal.jarr ((canonicalBag vals).map (fun kv =>
                JVal.jobj [("w", floatToJson kv.2), ("v", kv.1.toJson)])))] "values" =
            some (JVal.jarr ((canonicalBag vals).map (fun kv =>
                JVal.jobj [("w", floatToJson kv.2), ("v", kv.1.toJson)]))) from by
              simp [getField]]
        rw [show getField [("entries", floatToJson (.fin q)),
              ("values", JVal.jarr ((canonicalBag vals).map (fun kv =>
                JVal.jobj [("w", floatToJson kv.2), ("v", kv.1.toJson)])))] "name" =
            none from by simp [getField]]
        simp only [Option.some_bind, jsonToEVal_floatToJson, parseOptName]
        rw [← hcanon]
        simp only [parseBagRows_roundTrip vals [] hgood (by simp) hnodup,
          List.nil_append]
        rw [ltZero_of_nonneg q hq]
        simp [reload, resolveName]
      · rw [if_pos (by simp [hasKeys])]
        rw [show getField ([("entries", floatToJson (.fin q)),
              ("values", JVal.jarr ((canonicalBag vals).map (fun kv =>
                JVal.jobj [("w", floatToJson kv.2), ("v", kv.1.toJson)])))] ++
              [("name", JVal.jstr s)]) "entries" =
            some (floatToJson (.fin q)) from by simp [getField]]
        rw [show getField ([("entries", floatToJson (.fin q)),
              ("values", JVal.jarr ((canonicalBag vals).map (fun kv =>
                JVal.jobj [("w", floatToJson kv.2), ("v", kv.1.toJson)])))] ++
              [("name", JVal.jstr s)]) "values" =
            some (JVal.jarr ((canonicalBag vals).map (fun kv =>
                JVal.jobj [("w", floatToJson kv.2), ("v", kv.1.toJson)]))) from by
              simp [getField]]
        rw [show getField ([("entries", floatToJson (.fin q)),
              ("values", JVal.jarr ((canonicalBag vals).map (fun kv =>
                JVal.jobj [("w", floatToJson kv.2), ("v", kv.1.toJson)])))] ++
              [("name", JVal.jstr s)]) "name" =
            some (JVal.jstr s) from by simp [getField]]
        simp only [Option.some_bind, jsonToEVal_floatToJson, parseOptName]
        rw [← hcanon]
        simp only [parseBagRows_roundTrip vals [] hgood (by simp) hnodup,
          List.nil_append]
        rw [ltZero_of_nonneg q hq]
        simp [reload, resolveName]
  | deviate qt e m s =>
      intro sup nfp fuel hwf _
      obtain ⟨⟨q, he, hq⟩, h0⟩ := hwf
      subst he
      rcases hnm : (if sup then none else qt.name) with _ | nm2 <;>
        simp only [Prim.toJsonFragment, Prim.primName, Prim.qnameOf, hnm, maybeField,
          List.append_nil, parseFragF, parseDeviate] <;>
        rw [if_pos (by simp [hasKeys])] <;>
        simp [getField, jsonToEVal_floatToJson, parseOptName, ltZero_of_nonneg q hq,
          reload, resolveName]
  | fraction qt e n d ihn ihd =>
      intro sup nfp fuel hwf hfuel
      obtain ⟨⟨q, he, hq⟩, hpn, hqn, hwn, hwd⟩ := hwf
      subst he
      cases fuel with
      | zero =>
          exfalso
          simp only [Prim.toJsonFragment, jsize, Nat.le_zero] at hfuel
          omega
      | succ fuel =>
          have hnfuel : jsize (n.toJsonFragment true) ≤ fuel := by
            rcases hnm2 : (if sup then none else qt.name) with _ | s1 <;>
              rcases hsub2 : n.qnameOf with _ | s2 <;>
              simp only [Prim.toJsonFragment, hnm2, hsub2, maybeField, List.append_nil,
                jsize, jsizeFields, jsize_floatToJson, List.append_assoc,
                List.cons_append, List.nil_append] at hfuel <;>
              omega
          have hdfuel : jsize (d.toJsonFragment true) ≤ fuel := by
            rcases hnm2 : (if sup then none else qt.name) with _ | s1 <;>
              rcases hsub2 : n.qnameOf with _ | s2 <;>
              simp only [Prim.toJsonFragment, hnm2, hsub2, maybeField, List.append_nil,
                jsize, jsizeFields, jsize_floatToJson, List.append_assoc,
                List.cons_append, List.nil_append] at hfuel <;>
              omega
          have hn2 := ihn true n.qnameOf fuel hwn hnfuel
          have hd2 := ihd true n.qnameOf fuel hwd hdfuel
          rw [← hpn] at hd2
          have hq2 : (Prim.fraction qt (EVal.fin q) n d).qnameOf = qt.name := rfl
          have hp2 : (Prim.fraction qt (EVal.fin q) n d).primName = "Fraction" := rfl
          rcases hnm : (if sup then none else qt.name) with _ | s1 <;>
            rcases hsub : n.qnameOf with _ | s2 <;>
            rw [hsub] at hn2 hd2 <;>
            simp only [Prim.toJsonFragment, hp2, hq2, hsub, hnm, maybeField,
              List.append_nil, List.append_assoc, List.cons_append,
              List.nil_append, parseFragF] <;>
            rw [if_pos (by simp [hasKeys])] <;>
            simp [getField, jsonToFinite_fin, parseOptName, knownType_primName,
              hn2, hd2, ltZero_of_nonneg q hq, reload, resolveName, hsub]
  | select qt e c ihc =>
      intro sup nfp fuel hwf hfuel
      obtain ⟨⟨q, he, hq⟩, hwc⟩ := hwf
      subst he
      cases fuel with
      | zero =>
          exfalso
          simp only [Prim.toJsonFragment, jsize, Nat.le_zero] at hfuel
          omega
      | succ fuel =>
          have hcfuel : jsize (c.toJsonFragment false) ≤ fuel := by
            rcases hnm2 : (if sup then none else qt.name) with _ | s1 <;>
              simp only [Prim.toJsonFragment, hnm2, maybeField, List.append_nil,
                jsize, jsizeFields, jsize_floatToJson, List.append_assoc,
                List.cons_append, List.nil_append] at hfuel <;>
              omega
          have hc2 := ihc false none fuel hwc hcfuel
          rw [resolveName_none] at hc2
          have hq2 : (Prim.select qt (EVal.fin q) c).qnameOf = qt.name := rfl
          have hp2 : (Prim.select qt (EVal.fin q) c).primName = "Select" := rfl
          rcases hnm : (if sup then none else qt.name) with _ | s1 <;>
            simp only [Prim.toJsonFragment, hp2, hq2, hnm,
              maybeField, List.append_nil, List.append_assoc, List.cons_append,
              List.nil_append, parseFragF] <;>
            rw [if_pos (by simp [hasKeys])] <;>
            simp [getField, jsonToFinite_fin, parseOptName, knownType_primName,
              hc2, ltZero_of_nonneg q hq, reload, resolveName]

/-- C8 (amended): for every well-formed state P — finite non-negative
entries, Fraction children of one kind sharing the quantity name, Bag
values in canonical order with distinct wire-surviving keys, and
zero-entries Deviates with varianceTimesEntries 0 or NaN —
Factory.fromJson(P.toJson()) compares equal to P under the library's
`__eq__` with float tolerance.  (The unrestricted claim is refuted by the
companion counterexample: a Bag holding the literal string key "inf"
reloads as the float-key infinity and compares unequal.) -/
theorem C8_round_trip_amended {α : Type} (rtol atol : ℚ) (p : Prim α) (h : WF p) :
    rtCheck rtol atol p = true := by
  have hparse := parse_toJsonFragment p false none (jsize (p.toJsonFragment false))
    h (le_refl _)
  simp only [Bool.false_eq_true, if_false] at hparse
  rw [resolveName_none] at hparse
  have htop : (factoryFromJson p.toJson : Except PErr (Prim α)) =
      .ok (reload p p.qnameOf) := by
    simp only [Prim.toJson, factoryFromJson]
    rw [show getField [("type", JVal.jstr p.primName), ("data", p.toJsonFragment false),
          ("version", JVal.jstr "1.0")] "type" = some (JVal.jstr p.primName) from by
        simp [getField]]
    rw [show getField [("type", JVal.jstr p.primName), ("data", p.toJsonFragment false),
          ("version", JVal.jstr "1.0")] "data" = some (p.toJsonFragment false) from by
        simp [getField]]
    exact hparse
  unfold rtCheck
  rw [htop]
  exact peq_reload rtol atol p p.qnameOf h rfl

/-- A named Deviate state with entries 1, mean 3, varianceTimesEntries 5. -/
def devW : Prim ℚ := .deviate ⟨none, some "q"⟩ (.fin 1) (.fin 3) (.fin 5)

/-- A named Fraction over two such Deviates sharing the quantity name. -/
def fracW : Prim ℚ := .fraction ⟨none, some "f"⟩ (.fin 2) devW devW

/-- Witness: the Fraction-over-Deviate state is well-formed and its
serialization reloads equal to it at the test tolerance. -/
theorem C8_round_trip_amended_witness : WF fracW ∧ rtCheck tol12 tol12 fracW = true := by
  have hdev : WF devW := by
    refine ⟨⟨1, rfl, by norm_num⟩, ?_⟩
    intro hh
    exact absurd (EVal.fin.inj hh) (by norm_num)
  have hwf : WF fracW := ⟨⟨2, rfl, by norm_num⟩, rfl, rfl, hdev, hdev⟩
  exact ⟨hwf, C8_round_trip_amended tol12 tol12 fracW hwf⟩

/-- A Bag holding the literal Python string "inf" as a key. -/
def bagInfStr : Prim ℚ := .bag ⟨none, none⟩ (.fin 1) [(.kstr "inf", .fin 1)]

/-- C8 as stated is false: the string key "inf" serializes exactly like the
float sentinel for infinity, so Bag.fromJsonFragment reloads it as the
float key inf and the reloaded Bag compares unequal to the original. -/
theorem C8_round_trip_fails_cex : rtCheck 0 0 bagInfStr = false := rfl
